import Mathlib

/-!
# extensions/spamfilter_nicks.c : nickname-flood detection

A shallow embedding of the Bloom store, the group registry, the raw-byte
tokenizer and the two hooks of `extensions/spamfilter_nicks.c`, followed by
theorems about them.

Conventions of the embedding.

* A C string is a list of byte values (`Str`); the string a `char *` denotes
  is the part of the list before its first NUL byte, and reading past the
  end of the list yields NUL.
* `uint64_t` hash arithmetic wraps, so it is written with `% 2 ^ 64`.
  The counters `bloom_members`, `ret`, `i`, `j`, `k` are natural numbers:
  they count events or index a message buffer and cannot reach their
  machine bound.
* `time_t` values are integers.
* Functions the module calls but does not define (`fnv_hash_upper`,
  `find_named_client`, `IsMember`, `rb_current_time`, the case
  canonicaliser, `NICKLEN`, the mode table) are fields of `Env` and `World`.
-/

namespace SpamfilterNicks

/-- Bytes of a C string buffer. -/
abbrev Str := List Nat

/-- The string a `char *` denotes: the bytes before the first NUL. -/
def cstr (p : Str) : Str := p.takeWhile (fun b => b != 0)

/-- The C library `strlen`. -/
def strlen (p : Str) : Nat := (cstr p).length

/-- The librb `rb_strlcpy(dst, src, size)`, a `strlcpy`: the string it leaves
in `dst` is the first `size - 1` bytes of the string `src` denotes, or all of
it when it is shorter. -/
def rb_strlcpy (src : Str) (size : Nat) : Str := (cstr src).take (size - 1)

structure Client where
  name : Str
deriving DecidableEq, Repr

structure membership where
  client_p : Client
deriving DecidableEq, Repr

/-- The fields of `struct Channel` the module reads: the name, the member
list and the mode word `mode.mode`. -/
structure Channel where
  chname : Str
  members : List membership
  mode : Nat
deriving DecidableEq, Repr

/-- Build-time collaborators of the module. -/
structure Env where
  /-- The function `fnv_hash_upper(str, bits)` of the ircd hash library. -/
  fnv_hash_upper : Str → Nat → Nat
  /-- Tells whether plain `char` is a signed type on the target. -/
  char_signed : Bool
  /-- The constant `NICKLEN`. -/
  NICKLEN : Nat
  /-- The key canonicaliser `irc_radixtree_irccasecanon`. -/
  irccasecanon : Str → Str
  /-- The table entry `chmode_table[MODE_SPAMFILTER].mode_type`. -/
  spamfilter_mode_type : Nat

/-- Run-time collaborators: the clock and the authoritative membership
lookup. -/
structure World where
  rb_current_time : Int
  find_named_client : Str → Option Client
  IsMember : Client → Channel → Bool

def NUM_HASHES : Nat := 2

/-- The module's global variables. A filter is `none` when its pointer is
NULL and `some mem` when it points to the bytes `mem`; `chans` is `none`
when the tree pointer is NULL, and otherwise holds the canonical keys of the
tree. -/
structure State where
  conf_limit : Nat
  conf_nicklen_min : Nat
  conf_bloom_size : Nat
  conf_bloom_bits : Nat
  conf_bloom_refresh : Int
  bloom : List (Option (List Nat))
  bloom_salt : Nat
  bloom_size : Nat
  bloom_members : Nat
  bloom_flushed : Int
  chans : Option (List Str)
deriving DecidableEq, Repr

/-- The globals as the C initialisers leave them, before `modinit`. -/
def State.init : State :=
  { conf_limit := 5
    conf_nicklen_min := 4
    conf_bloom_size := 1024 * 64
    conf_bloom_bits := 16
    conf_bloom_refresh := 86400
    bloom := List.replicate NUM_HASHES none
    bloom_salt := 0
    bloom_size := 0
    bloom_members := 0
    bloom_flushed := 0
    chans := none }

/-! ## Hash bank -/

def bloom_hash_fnv (env : Env) (s : State) (str : Str) : Nat :=
  env.fnv_hash_upper str s.conf_bloom_bits % 2 ^ 64

/-- Conversion of a `char` value to `uint64_t`. -/
def char_to_u64 (env : Env) (b : Nat) : Nat :=
  if env.char_signed && decide (128 ≤ b % 256) then 2 ^ 64 - 256 + b % 256 else b % 256

def bloom_hash_bernstein (env : Env) (str : Str) : Nat :=
  (cstr str).foldl (fun ret c => (ret * 33 + char_to_u64 env c) % 2 ^ 64) 7681

/-- The table `bloom_hashes[i]`. -/
def bloom_hashes (env : Env) (s : State) (i : Nat) (str : Str) : Nat :=
  match i with
  | 0 => bloom_hash_fnv env s str
  | _ => bloom_hash_bernstein env str

/-! ## Bloom store -/

/-- The C library `memset` on a block; a NULL block is left alone. -/
def memset (p : Option (List Nat)) (c : Nat) (n : Nat) : Option (List Nat) :=
  p.map (fun mem => List.replicate (min n mem.length) c ++ mem.drop n)

def bloom_flush (w : World) (s : State) : State :=
  let s1 := (List.range NUM_HASHES).foldl
    (fun st i => { st with bloom := st.bloom.set i (memset (st.bloom.getD i none) 0 st.bloom_size) }) s
  { s1 with bloom_flushed := w.rb_current_time, bloom_members := 0 }

def bloom_destroy (s : State) : State :=
  let s1 := (List.range NUM_HASHES).foldl
    (fun st i => { st with bloom := st.bloom.set i none }) s
  { s1 with bloom_members := 0, bloom_size := 0 }

/-- The librb `rb_malloc(size)`: a fresh zero-filled block of `size` bytes. -/
def rb_malloc (size : Nat) : Option (List Nat) := some (List.replicate size 0)

def bloom_create (w : World) (s : State) (size : Nat) : State :=
  if size = 0 then s
  else
    let s1 := (List.range NUM_HASHES).foldl
      (fun st i => { st with bloom := st.bloom.set i (rb_malloc size) }) s
    bloom_flush w { s1 with bloom_size := size }

/-- The function `bloom_add`. Dereferencing a NULL filter is undefined in C
and is a no-op here; the hooks never reach it. -/
def bloom_add (s : State) (filter : Nat) (hash : Nat) : State :=
  let hash := (hash + s.bloom_salt) % 2 ^ 64
  let hash := hash % (s.bloom_size * 8 % 2 ^ 64)
  match s.bloom.getD filter none with
  | none => s
  | some mem =>
    let byte := (mem.getD (hash / 8) 0 ||| (1 <<< (hash % 8))) % 256
    { s with bloom := s.bloom.set filter (some (mem.set (hash / 8) byte)) }

/-- The function `bloom_test`; a NULL filter reads as 0. -/
def bloom_test (s : State) (filter : Nat) (hash : Nat) : Nat :=
  let hash := (hash + s.bloom_salt) % 2 ^ 64
  let hash := hash % (s.bloom_size * 8 % 2 ^ 64)
  let bit := hash % 8
  match s.bloom.getD filter none with
  | none => 0
  | some mem => (mem.getD (hash / 8) 0 &&& (1 <<< bit)) >>> bit

def bloom_add_str (env : Env) (s : State) (str : Str) : State :=
  let s1 := (List.range NUM_HASHES).foldl
    (fun st i => bloom_add st i (bloom_hashes env st i str)) s
  { s1 with bloom_members := s1.bloom_members + 1 }

def bloom_test_str (env : Env) (s : State) (str : Str) : Nat :=
  let count := (List.range NUM_HASHES).foldl
    (fun count i => count + bloom_test s i (bloom_hashes env s i str)) 0
  if count ≥ NUM_HASHES then 1 else 0

/-! ## Group registry -/

/-- Modelled from the spec: the radix tree of `irc_radixtree.h` is not among
the sources. It is a mapping keyed by the canonicalised group name; only the
keys are kept. `irc_radixtree_create` yields the empty tree. -/
def irc_radixtree_create : Option (List Str) := some []

/-- Modelled from the spec: lookup of a key in the tree, `true` when the
canonicalised key is present (the C function returns its non-NULL datum). -/
def irc_radixtree_retrieve (env : Env) (t : Option (List Str)) (key : Str) : Bool :=
  match t with
  | none => false
  | some keys => decide (env.irccasecanon (cstr key) ∈ keys)

/-- Modelled from the spec: insertion of a key; it fails, leaving the tree
as it was, when the canonicalised key is already present. -/
def irc_radixtree_add (env : Env) (t : Option (List Str)) (key : Str) :
    Option (List Str) × Bool :=
  match t with
  | none => (none, false)
  | some keys =>
    if env.irccasecanon (cstr key) ∈ keys then (some keys, false)
    else (some (env.irccasecanon (cstr key) :: keys), true)

/-- Modelled from the spec: the number of keys in the tree. -/
def irc_radixtree_size (t : Option (List Str)) : Nat :=
  match t with
  | none => 0
  | some keys => keys.length

def chans_has (env : Env) (s : State) (chptr : Channel) : Nat :=
  if irc_radixtree_retrieve env s.chans chptr.chname then 1 else 0

def chans_add (env : Env) (s : State) (chptr : Channel) : State × Nat :=
  match irc_radixtree_add env s.chans chptr.chname with
  | (_, false) => (s, 0)
  | (t, true) =>
    (chptr.members.foldl (fun st msptr => bloom_add_str env st msptr.client_p.name)
      { s with chans := t }, 1)

def expired (w : World) (s : State) : Bool :=
  decide (s.bloom_flushed + s.conf_bloom_refresh < w.rb_current_time)

def reset (w : World) (s : State) : State :=
  let s1 := if (s.bloom.getD 0 none).isSome then bloom_flush w s else s
  { s1 with chans := irc_radixtree_create }

def resize (w : World) (s : State) (size : Nat) : State :=
  bloom_create w (reset w (bloom_destroy s)) size

/-! ## Token tests -/

def prob_test_token (env : Env) (s : State) (token : Str) : Nat :=
  bloom_test_str env s token

def real_test_token (w : World) (token : Str) (chptr : Channel) : Nat :=
  match w.find_named_client token with
  | none => 0
  | some client => if w.IsMember client chptr then 1 else 0

/-- The arguments of one false-positive notice: size, members, channels and
seconds since the last flush. -/
abbrev Report := Nat × Nat × Nat × Int

def false_positive_message (w : World) (s : State) : Report :=
  (s.bloom_size, s.bloom_members, irc_radixtree_size s.chans,
    w.rb_current_time - s.bloom_flushed)

/-! ## Tokenizer -/

/-- The expression `len` of `is_delim`: the number of leading one bits of the
first byte, up to six. -/
def mb_len (p0 : Nat) : Nat :=
  (if p0 &&& 0x80 = 0x80 then 1 else 0) +
  (if p0 &&& 0xC0 = 0xC0 then 1 else 0) +
  (if p0 &&& 0xE0 = 0xE0 then 1 else 0) +
  (if p0 &&& 0xF0 = 0xF0 then 1 else 0) +
  (if p0 &&& 0xF8 = 0xF8 then 1 else 0) +
  (if p0 &&& 0xFC = 0xFC then 1 else 0)

/-- The ASCII ranges tested first by `is_delim`. -/
def ascii_delim (p0 : Nat) : Bool :=
  (decide (p0 ≥ 0x20) && decide (p0 ≤ 0x2F)) ||
  (decide (p0 ≥ 0x3A) && decide (p0 ≤ 0x40)) ||
  (decide (p0 ≥ 0x5C) && decide (p0 ≤ 0x60)) ||
  (decide (p0 ≥ 0x7B) && decide (p0 ≤ 0x7F))

/-- The value `htonl(*(const uint32_t *)ptr)`: the four bytes at `ptr`, most
significant first. -/
def load_be32 (ptr : Str) : Nat :=
  ptr.getD 0 0 * 2 ^ 24 + ptr.getD 1 0 * 2 ^ 16 + ptr.getD 2 0 * 2 ^ 8 + ptr.getD 3 0

/-- The case labels of the switch in `is_delim`. -/
def delim_cases : List Nat :=
  [0x20000, 0x20001, 0x20002, 0x20003, 0x20004, 0x20005, 0x20006, 0x20007,
   0x20008, 0x20009, 0x2000A, 0x2000B, 0x2002F, 0x2005F, 0x30000, 0xf3b3f]

/-- The function `is_delim(ptr, adv)`; the result is the returned `int`
paired with the new value of `*adv`. -/
def is_delim (ptr : Str) (adv : Nat) : Nat × Nat :=
  if ascii_delim (ptr.getD 0 0) then (1, adv)
  else
    let len := mb_len (ptr.getD 0 0)
    let adv := if len ≠ 0 then adv + (len - 1) else adv
    if len ≠ 3 then (0, adv)
    else if ((load_be32 ptr &&& 0x1F7F7F00) >>> 8) ∈ delim_cases then (1, adv)
    else (0, adv)

/-- What one run of `count_nicks` did: the returned count, the false-positive
notices sent, and two ghost records, the tokens handed to `prob_test_token`
and the pairs `(i, j)` at which a delimiter was met. -/
structure Scan where
  ret : Nat
  reports : List Report
  tested : List Str
  visits : List (Nat × Nat)
deriving DecidableEq, Repr

def Scan.empty : Scan := { ret := 0, reports := [], tested := [], visits := [] }

/-- The body of `count_nicks` executed when `is_delim` answered 1 at index
`i` with run length `j`. -/
def count_nicks_delim (env : Env) (w : World) (s : State) (text : Str) (chptr : Channel)
    (i j : Nat) (acc : Scan) : Scan :=
  let acc := { acc with visits := acc.visits ++ [(i, j)] }
  if j ≥ s.conf_nicklen_min ∧ j ≤ env.NICKLEN then
    let token := rb_strlcpy (text.drop (i - j)) (j + 1)
    let acc := { acc with tested := acc.tested ++ [token] }
    if prob_test_token env s token ≠ 0 then
      if real_test_token w token chptr ≠ 0 then { acc with ret := acc.ret + 1 }
      else { acc with reports := acc.reports ++ [false_positive_message w s] }
    else acc
  else acc

/-- The `for` loop of `count_nicks`, one iteration per unit of fuel. -/
def count_nicks_loop (env : Env) (w : World) (s : State) (text : Str) (chptr : Channel)
    (len : Nat) : Nat → Nat → Nat → Nat → Scan → Scan
  | 0, _, _, _, acc => acc
  | fuel + 1, i, j, k, acc =>
    if i + 6 < len then
      if (is_delim (text.drop i) k).1 = 0 then
        count_nicks_loop env w s text chptr len fuel (i + 1) (j + 1) (is_delim (text.drop i) k).2 acc
      else
        count_nicks_loop env w s text chptr len fuel (i + (is_delim (text.drop i) k).2 + 1) 0 0
          (count_nicks_delim env w s text chptr i j acc)
    else acc

/-- The run of `count_nicks(text, chptr)` with its records. Every iteration
advances `i`, so `strlen(text)` units of fuel let the loop finish. -/
def count_nicks_scan (env : Env) (w : World) (s : State) (text : Str) (chptr : Channel) : Scan :=
  count_nicks_loop env w s text chptr (strlen text) (strlen text) 0 0 0 Scan.empty

def count_nicks (env : Env) (w : World) (s : State) (text : Str) (chptr : Channel) : Nat :=
  (count_nicks_scan env w s text chptr).ret

/-! ## Hooks -/

structure hook_data_privmsg_channel where
  chptr : Channel
  text : Str
  approved : Int
  reason : Option String
deriving DecidableEq, Repr

structure hook_data_channel_approval where
  client : Client
  chptr : Channel
deriving DecidableEq, Repr

/-- The text `snprintf` writes into the 64-byte `reason` buffer; it is at
most 40 characters long for a 32-bit count. -/
def reason_text (counted : Nat) : String :=
  "nicks: counted at least " ++ toString counted ++ " names"

/-- The hook `hook_spamfilter_query`: the hook data on return and the record
of the scan it ran, if any. It changes no global. -/
def hook_spamfilter_query (env : Env) (w : World) (s : State)
    (hook : hook_data_privmsg_channel) : hook_data_privmsg_channel × Scan :=
  if hook.approved ≠ 0 then (hook, Scan.empty)
  else if (s.bloom.getD 0 none).isNone then (hook, Scan.empty)
  else
    let sc := count_nicks_scan env w s hook.text hook.chptr
    let counted := sc.ret
    if counted < s.conf_limit then (hook, sc)
    else ({ hook with reason := some (reason_text counted), approved := -1 }, sc)

/-- The guard `~mode & mode_type` of `hook_channel_join` is zero. -/
def spamfilter_enabled (env : Env) (chptr : Channel) : Bool :=
  (2 ^ 32 - 1 - chptr.mode % 2 ^ 32) &&& env.spamfilter_mode_type == 0

def hook_channel_join (env : Env) (w : World) (s : State)
    (data : hook_data_channel_approval) : State :=
  if ¬ spamfilter_enabled env data.chptr then s
  else if (s.bloom.getD 0 none).isNone then s
  else
    let s1 := if expired w s then reset w s else s
    if chans_has env s1 data.chptr ≠ 0 then bloom_add_str env s1 data.client.name
    else (chans_add env s1 data.chptr).1

def conf_spamfilter_nicks_end (w : World) (s : State) : State :=
  if s.conf_bloom_size ≠ s.bloom_size then resize w s s.conf_bloom_size else s

/-- Conversion of the configured `int` to `size_t`. -/
def int_to_size_t (val : Int) : Nat := (val % 2 ^ 64).toNat

def set_conf_limit (s : State) (val : Int) : State := { s with conf_limit := int_to_size_t val }

def set_conf_nicklen_min (s : State) (val : Int) : State :=
  { s with conf_nicklen_min := int_to_size_t val }

def set_conf_bloom_size (s : State) (val : Int) : State :=
  { s with conf_bloom_size := int_to_size_t val }

def set_conf_bloom_bits (s : State) (val : Int) : State :=
  { s with conf_bloom_bits := int_to_size_t val }

def set_conf_bloom_refresh (s : State) (val : Int) : State := { s with conf_bloom_refresh := val }

/-- The function `modinit`; `salt` is the value `rb_get_random` draws. -/
def modinit (w : World) (s : State) (salt : Nat) : State :=
  resize w { s with bloom_salt := salt % 2 ^ 64 } s.conf_bloom_size

/-! ## Specification vocabulary -/

/-- The bit index `bloom_add` and `bloom_test` derive from a hash value: the
hash plus the salt, reduced modulo the number of bits, in `uint64_t`
arithmetic. -/
def bloom_index (s : State) (hash : Nat) : Nat :=
  (hash + s.bloom_salt) % 2 ^ 64 % (s.bloom_size * 8 % 2 ^ 64)

/-- Bit `idx` of filter `filter` is set: bit `idx % 8` of byte `idx / 8`. -/
def filter_bit (s : State) (filter idx : Nat) : Bool :=
  match s.bloom.getD filter none with
  | none => false
  | some mem => (mem.getD (idx / 8) 0).testBit (idx % 8)

/-- The store is active: a nonzero size whose bit count fits `size_t`, and
every filter allocated with `bloom_size` bytes. -/
def Active (s : State) : Prop :=
  0 < s.bloom_size ∧ s.bloom_size * 8 < 2 ^ 64 ∧
    ∀ i, i < NUM_HASHES → (s.bloom.getD i none).map List.length = some s.bloom_size

instance (s : State) : Decidable (Active s) := by
  unfold Active; infer_instance

/-- The pairs `(i, j)` at which the loop of `count_nicks` meets a delimiter:
the index of the delimiter and the run length counted before it. This is the
loop with everything but its control flow removed. -/
def scan_visits (text : Str) (len : Nat) : Nat → Nat → Nat → Nat → List (Nat × Nat)
  | 0, _, _, _ => []
  | fuel + 1, i, j, k =>
    if i + 6 < len then
      if (is_delim (text.drop i) k).1 = 0 then
        scan_visits text len fuel (i + 1) (j + 1) (is_delim (text.drop i) k).2
      else
        (i, j) :: scan_visits text len fuel (i + (is_delim (text.drop i) k).2 + 1) 0 0
    else []

/-- The scanner classifies the byte at index `i` as the start of a
delimiter. -/
def delim_at (text : Str) (i : Nat) : Bool := (is_delim (text.drop i) 0).1 != 0

/-- The slice `text[i-j .. i-1]`. -/
def slice_before (text : Str) (i j : Nat) : Str := (text.drop (i - j)).take j

/-- The length window of `count_nicks`. -/
def in_window (env : Env) (s : State) (j : Nat) : Bool :=
  decide (s.conf_nicklen_min ≤ j) && decide (j ≤ env.NICKLEN)

/-- The runs of non-delimiter bytes of `text` that a delimiter terminates, in
order of appearance; `cur` is the run in progress. Each listed run is maximal:
it starts at the start of the buffer or just after a delimiter, and ends just
before one. The run at the end of the buffer, which no delimiter follows, is
not listed, and two adjacent delimiters enclose an empty run. -/
def terminated_runs (isd : Nat → Bool) : List Nat → List Nat → List (List Nat)
  | [], _ => []
  | b :: rest, cur =>
    if isd b then cur :: terminated_runs isd rest []
    else terminated_runs isd rest (cur ++ [b])

/-- The token `count_nicks` copies out at a delimiter met at index `i` after
a run of `j` bytes. -/
def token_at (text : Str) (v : Nat × Nat) : Str := rb_strlcpy (text.drop (v.1 - v.2)) (v.2 + 1)

/-- A token is a true hit: the probabilistic and the exact test both accept. -/
def true_hit (env : Env) (w : World) (s : State) (chptr : Channel) (t : Str) : Bool :=
  prob_test_token env s t != 0 && real_test_token w t chptr != 0

/-- A token is a false positive: the probabilistic test accepts it and the
exact test does not. -/
def false_hit (env : Env) (w : World) (s : State) (chptr : Channel) (t : Str) : Bool :=
  prob_test_token env s t != 0 && real_test_token w t chptr == 0

/-- The names of the current members of a channel, in list order. -/
def member_names (chptr : Channel) : List Str := chptr.members.map (fun m => m.client_p.name)

/-- The canonical registry key of a channel. -/
def chan_key (env : Env) (chptr : Channel) : Str := env.irccasecanon (cstr chptr.chname)

/-! ## Sample inputs for the closed instances -/

/-- The bytes of an ASCII literal. -/
def bytes (s : String) : Str := s.toList.map Char.toNat

/-- Upper-casing of the ASCII letters, byte by byte. -/
def sample_upper (key : Str) : Str := key.map (fun c => if 97 ≤ c ∧ c ≤ 122 then c - 32 else c)

/-- A sample first hash, shaped like the one of the ircd hash library: a
32-bit FNV pass over the upper-cased string, folded down to `bits` bits. -/
def sample_fnv (str : Str) (bits : Nat) : Nat :=
  let h := (sample_upper (cstr str)).foldl (fun h c => (h ^^^ c) * 16777619 % 2 ^ 32) 2166136261
  if bits < 32 then ((h >>> bits) ^^^ h) % 2 ^ bits else h

/-- A sample build: the sample first hash, signed `char`, `NICKLEN` 31, and a
canonicaliser that upper-cases the ASCII letters. -/
def sample_env : Env :=
  { fnv_hash_upper := sample_fnv
    char_signed := true
    NICKLEN := 31
    irccasecanon := sample_upper
    spamfilter_mode_type := 1 }

/-- A sample world at time 100 in which a name denotes a client exactly when
it is listed, and membership is read off the channel's member list. -/
def sample_world (names : List Str) : World :=
  { rb_current_time := 100
    find_named_client := fun n => if n ∈ names then some { name := n } else none
    IsMember := fun c ch => decide ({ client_p := c } ∈ ch.members) }

/-- A sample store of `size` bytes, freshly created by `modinit`. -/
def sample_state (size : Nat) : State :=
  modinit (sample_world []) { State.init with conf_bloom_size := size } 12345

/-- A sample channel `#chan` with detection enabled and the given members. -/
def sample_channel (names : List Str) : Channel :=
  { chname := bytes "#chan"
    members := names.map (fun n => { client_p := { name := n } })
    mode := 1 }

/-- A sample message hook on `#chan` that no earlier stage has suppressed. -/
def sample_hook (names : List Str) (text : Str) : hook_data_privmsg_channel :=
  { chptr := sample_channel names, text := text, approved := 0, reason := none }

/-- A text whose first character is the two-byte sequence C3 A9, followed by
a space, the run `ABCDE`, a space and seven filler bytes. -/
def sample_multibyte_text : Str := [0xC3, 0xA9, 0x20] ++ bytes "ABCDE xxxxxxx"

/-- A text whose first character is the two-byte sequence C3 A9, followed by
a space, a run of 32 letters, a space and seven filler bytes. -/
def sample_long_run_text : Str :=
  [0xC3, 0xA9, 0x20] ++ bytes "ABCDEFGHIJKLMNOPQRSTUVWXYZabcdef xxxxxxx"

/-- A message that opens with the word `caf` ended by the two-byte sequence
C3 A9 and then names five members, followed by more text. -/
def sample_accent_text : Str :=
  bytes "caf" ++ [0xC3, 0xA9] ++ bytes " anna bert carl dora emil, please stop"

/-- Six sample member names. -/
def sample_names : List Str :=
  [bytes "anna", bytes "bert", bytes "carl", bytes "dora", bytes "emil", bytes "fred"]

/-- The sample store of 8 bytes after `chans_add` registered the sample
channel with its six members. -/
def sample_seeded : State := (chans_add sample_env (sample_state 8) (sample_channel sample_names)).1

/-- The sample world with the clock reading `now`. -/
def sample_world_at (names : List Str) (now : Int) : World :=
  { sample_world names with rb_current_time := now }

/-- The store after `modinit` with the default configuration, a
reconfiguration to 8 bytes, and the join of `anna` to the sample channel, of
which she is then the only member. -/
def sample_joined : State :=
  hook_channel_join sample_env (sample_world [])
    (conf_spamfilter_nicks_end (sample_world [])
      (set_conf_bloom_size (modinit (sample_world []) State.init 12345) 8))
    { client := { name := bytes "anna" }, chptr := sample_channel [bytes "anna"] }

/-! ## Event model

The module observes the groups of the server through the channel records its
hooks receive. To speak of states reachable through events, the groups are
kept next to the module's globals. -/

/-- The module's globals together with the groups that exist, each with its
current members. -/
structure Sys where
  st : State
  groups : List Channel

/-- One configuration item of a `spamfilter_nicks` block. -/
inductive Setting where
  | limit (val : Int)
  | nicklen_min (val : Int)
  | bloom_size (val : Int)
  | bloom_bits (val : Int)
  | bloom_refresh (val : Int)

/-- The setter the configuration parser calls for an item. -/
def apply_setting (s : State) : Setting → State
  | .limit val => set_conf_limit s val
  | .nicklen_min val => set_conf_nicklen_min s val
  | .bloom_size val => set_conf_bloom_size s val
  | .bloom_bits val => set_conf_bloom_bits s val
  | .bloom_refresh val => set_conf_bloom_refresh s val

/-- A reconfiguration: the items of the block are set in order, then
`conf_spamfilter_nicks_end` runs. -/
def configure (w : World) (s : State) (items : List Setting) : State :=
  conf_spamfilter_nicks_end w (items.foldl apply_setting s)

/-- The group record after `client` has become a member. -/
def add_member (ch : Channel) (client : Client) : Channel :=
  { ch with members := ch.members ++ [{ client_p := client }] }

/-- A join makes `client` a member of the group with the canonical name of
`chname`, creating the group with mode word `mode` when there is none; the
result is the new list of groups and the record of the joined group. -/
def join_group (env : Env) : List Channel → Str → Nat → Client → List Channel × Channel
  | [], chname, mode, client =>
    ([{ chname := chname, members := [{ client_p := client }], mode := mode }],
      { chname := chname, members := [{ client_p := client }], mode := mode })
  | g :: gs, chname, mode, client =>
    if chan_key env g = env.irccasecanon (cstr chname) then
      (add_member g client :: gs, add_member g client)
    else
      (g :: (join_group env gs chname mode client).1, (join_group env gs chname mode client).2)

/-- The events of the module's life. -/
inductive Event where
  | modinit (w : World) (salt : Nat)
  | configure (w : World) (items : List Setting)
  | join (w : World) (chname : Str) (mode : Nat) (client : Client)
  | message (w : World) (hook : hook_data_privmsg_channel)

/-- The effect of an event. A join first makes the client a member and then
notifies `hook_channel_join`; a message changes no global. -/
def step (env : Env) (sys : Sys) : Event → Sys
  | .modinit w salt => { sys with st := modinit w sys.st salt }
  | .configure w items => { sys with st := configure w sys.st items }
  | .join w chname mode client =>
    { st := hook_channel_join env w sys.st
        { client := client, chptr := (join_group env sys.groups chname mode client).2 }
      groups := (join_group env sys.groups chname mode client).1 }
  | .message _ _ => sys

/-- A configuration item the invariant of the registry tolerates: it does not
touch `bloom_bits`, and a `bloom_size` is a non-negative `int`, which the
allocator can serve. -/
def Setting.tame : Setting → Prop
  | .bloom_bits _ => False
  | .bloom_size val => 0 ≤ val ∧ val < 2 ^ 31
  | _ => True

/-- An event all of whose configuration items are tame. -/
def Event.tame : Event → Prop
  | .configure _ items => ∀ item ∈ items, item.tame
  | _ => True

/-- The state of the system before the module is loaded: the C initialisers
and no group. -/
def Sys.init : Sys := { st := State.init, groups := [] }

/-- The invariant of store and registry. The filter array has its two slots
and the configured size is allocatable; the store is either active with a
registry, or without filters and with no registered group; the groups have
distinct canonical names; every registered name is that of a group; and every
registered group has detection enabled and all its current members test
positive. -/
def RegInv (env : Env) (sys : Sys) : Prop :=
  sys.st.bloom.length = NUM_HASHES ∧ sys.st.conf_bloom_size * 8 < 2 ^ 64 ∧
  ((Active sys.st ∧ ∃ keys, sys.st.chans = some keys) ∨
    (sys.st.bloom.getD 0 none = none ∧ irc_radixtree_size sys.st.chans = 0)) ∧
  (sys.groups.map (chan_key env)).Nodup ∧
  (∀ keys, sys.st.chans = some keys → ∀ k ∈ keys, ∃ ch ∈ sys.groups, chan_key env ch = k) ∧
  (∀ keys, sys.st.chans = some keys → ∀ ch ∈ sys.groups, chan_key env ch ∈ keys →
    spamfilter_enabled env ch = true ∧
      ∀ m ∈ ch.members, bloom_test_str env sys.st m.client_p.name = 1)

/-! ## Vocabulary for the multi-byte delimiters -/

/-- One operation: a call of one of the module's functions, or a hook
notification. -/
inductive Op where
  | modinit (w : World) (salt : Nat)
  | resize (w : World) (size : Nat)
  | reset (w : World)
  | bloom_flush (w : World)
  | setting (item : Setting)
  | conf_end (w : World)
  | on_join (w : World) (data : hook_data_channel_approval)
  | on_message (w : World) (hook : hook_data_privmsg_channel)

/-- The state after an operation; a message changes no global. -/
def run_op (env : Env) (s : State) : Op → State
  | .modinit w salt => modinit w s salt
  | .resize w size => resize w s size
  | .reset w => reset w s
  | .bloom_flush w => bloom_flush w s
  | .setting item => apply_setting s item
  | .conf_end w => conf_spamfilter_nicks_end w s
  | .on_join w data => hook_channel_join env w s data
  | .on_message _ _ => s

/-- The sizes an operation asks for can be allocated: a `resize` of fewer
than 2^61 bytes, a configured `bloom_size` that is a non-negative `int`. A
larger request makes `rb_malloc` end the process. -/
def Op.allocatable : Op → Prop
  | .resize _ size => size * 8 < 2 ^ 64
  | .setting (.bloom_size val) => 0 ≤ val ∧ val < 2 ^ 31
  | _ => True

/-- The activity invariant: the filter array has its two slots, the
configured size can be allocated, and the store is either active or has no
filter and size 0. -/
def ActInv (s : State) : Prop :=
  s.bloom.length = NUM_HASHES ∧ s.conf_bloom_size * 8 < 2 ^ 64 ∧
  (Active s ∨ ((∀ i, i < NUM_HASHES → s.bloom.getD i none = none) ∧ s.bloom_size = 0))

/-- A sample run: load the module, configure 8 bytes, a join, a flush, a
reset and a reconfiguration to size 0. -/
def sample_ops : List Op :=
  [.modinit (sample_world []) 12345,
   .setting (.bloom_size 8),
   .conf_end (sample_world []),
   .on_join (sample_world [])
     { client := { name := bytes "anna" }, chptr := sample_channel [bytes "anna"] },
   .on_message (sample_world []) (sample_hook [] (bytes "anna, and more text")),
   .bloom_flush (sample_world []),
   .reset (sample_world []),
   .resize (sample_world []) 4]

/-! # Theorems -/

/-! ## Bloom store -/

theorem and_shift_bit (x b : Nat) :
    (x &&& (1 <<< b)) >>> b = if x.testBit b then 1 else 0 := by
  rw [Nat.one_shiftLeft, Nat.and_two_pow, Nat.shiftRight_eq_div_pow]
  cases h : x.testBit b <;> simp

theorem bloom_test_eq (s : State) (filter hash : Nat) :
    bloom_test s filter hash = if filter_bit s filter (bloom_index s hash) then 1 else 0 := by
  unfold bloom_test filter_bit bloom_index
  cases h : s.bloom.getD filter none with
  | none => simp
  | some mem => simp only [and_shift_bit]

theorem bloom_test_str_eq (env : Env) (s : State) (str : Str) :
    bloom_test_str env s str =
      if filter_bit s 0 (bloom_index s (bloom_hashes env s 0 str)) &&
         filter_bit s 1 (bloom_index s (bloom_hashes env s 1 str)) then 1 else 0 := by
  unfold bloom_test_str
  simp only [NUM_HASHES, List.range_succ, List.range_zero, List.nil_append, List.foldl_cons,
    List.foldl_nil, List.cons_append, bloom_test_eq]
  cases filter_bit s 0 (bloom_index s (bloom_hashes env s 0 str)) <;>
    cases filter_bit s 1 (bloom_index s (bloom_hashes env s 1 str)) <;> simp

theorem bloom_add_frame (s : State) (filter hash : Nat) :
    (bloom_add s filter hash).bloom_salt = s.bloom_salt ∧
    (bloom_add s filter hash).bloom_size = s.bloom_size ∧
    (bloom_add s filter hash).bloom_members = s.bloom_members ∧
    (bloom_add s filter hash).bloom_flushed = s.bloom_flushed ∧
    (bloom_add s filter hash).chans = s.chans ∧
    (bloom_add s filter hash).conf_limit = s.conf_limit ∧
    (bloom_add s filter hash).conf_nicklen_min = s.conf_nicklen_min ∧
    (bloom_add s filter hash).conf_bloom_size = s.conf_bloom_size ∧
    (bloom_add s filter hash).conf_bloom_bits = s.conf_bloom_bits ∧
    (bloom_add s filter hash).conf_bloom_refresh = s.conf_bloom_refresh := by
  unfold bloom_add
  cases h : s.bloom.getD filter none <;> simp

theorem getD_set_eq {α : Type} (l : List α) (i j : Nat) (a d : α) :
    (l.set i a).getD j d = if i = j ∧ i < l.length then a else l.getD j d := by
  simp only [List.getD_eq_getElem?_getD, List.getElem?_set]
  by_cases hij : i = j
  · subst hij
    by_cases hlt : i < l.length
    · simp [hlt]
    · have : l[i]? = none := List.getElem?_eq_none (by omega)
      simp [hlt, this]
  · simp [hij]

theorem bloom_add_eq (s : State) (filter hash : Nat) :
    bloom_add s filter hash =
      match s.bloom.getD filter none with
      | none => s
      | some mem =>
        { s with bloom := s.bloom.set filter (some (mem.set (bloom_index s hash / 8)
            ((mem.getD (bloom_index s hash / 8) 0 ||| (1 <<< (bloom_index s hash % 8))) % 256))) } :=
  rfl

theorem getD_lt_of_some {α : Type} (l : List (Option α)) (i : Nat) (m : α)
    (h : l.getD i none = some m) : i < l.length := by
  by_contra hlt
  have : l[i]? = none := List.getElem?_eq_none (by omega)
  simp [List.getD_eq_getElem?_getD, this] at h

theorem bloom_add_shape (s : State) (filter hash i : Nat) :
    ((bloom_add s filter hash).bloom.getD i none).map List.length =
      (s.bloom.getD i none).map List.length := by
  rw [bloom_add_eq]
  generalize bloom_index s hash = b
  cases h : s.bloom.getD filter none with
  | none => simp
  | some mem =>
    simp only [getD_set_eq]
    by_cases hfi : filter = i
    · subst hfi
      rw [if_pos ⟨rfl, getD_lt_of_some _ _ _ h⟩, h]
      simp
    · simp [hfi]

theorem set_bit_testBit (x b c : Nat) (hc : c < 8) (h : x.testBit c = true ∨ b = c) :
    ((x ||| (1 <<< b)) % 256).testBit c = true := by
  rw [show (256 : Nat) = 2 ^ 8 from rfl, Nat.testBit_mod_two_pow, Nat.testBit_or,
    Nat.one_shiftLeft, Nat.testBit_two_pow]
  rcases h with h | h
  · simp [hc, h]
  · simp [hc, h]

theorem filter_bit_bloom_add_mono (s : State) (filter hash i idx : Nat)
    (hidx : filter_bit s i idx = true) : filter_bit (bloom_add s filter hash) i idx = true := by
  unfold filter_bit at hidx ⊢
  rw [bloom_add_eq]
  generalize bloom_index s hash = b
  cases h : s.bloom.getD filter none with
  | none => simpa using hidx
  | some mem =>
    simp only [getD_set_eq]
    by_cases hfi : filter = i
    · subst hfi
      rw [h] at hidx
      simp only [getD_lt_of_some _ _ _ h, and_self, if_true]
      simp only at hidx ⊢
      rw [getD_set_eq]
      by_cases hb : b / 8 = idx / 8 ∧ b / 8 < mem.length
      · rw [if_pos hb, hb.1]
        exact set_bit_testBit _ _ _ (Nat.mod_lt _ (by norm_num)) (Or.inl hidx)
      · rw [if_neg hb]; exact hidx
    · simpa [hfi] using hidx

theorem filter_bit_bloom_add_self (s : State) (filter hash : Nat) (mem : List Nat)
    (hmem : s.bloom.getD filter none = some mem) (hlen : bloom_index s hash / 8 < mem.length) :
    filter_bit (bloom_add s filter hash) filter (bloom_index s hash) = true := by
  unfold filter_bit
  rw [bloom_add_eq]
  generalize bloom_index s hash = b at hlen ⊢
  rw [hmem]
  simp only [getD_set_eq, getD_lt_of_some _ _ _ hmem, and_self, if_true, hlen]
  exact set_bit_testBit _ _ _ (Nat.mod_lt _ (by norm_num)) (Or.inr rfl)

theorem bloom_index_lt (s : State) (hash : Nat) (h0 : 0 < s.bloom_size)
    (h1 : s.bloom_size * 8 < 2 ^ 64) : bloom_index s hash / 8 < s.bloom_size := by
  unfold bloom_index
  rw [Nat.mod_eq_of_lt h1]
  have : (hash + s.bloom_salt) % 2 ^ 64 % (s.bloom_size * 8) < s.bloom_size * 8 :=
    Nat.mod_lt _ (by omega)
  omega

theorem bloom_add_str_eq (env : Env) (s : State) (str : Str) :
    bloom_add_str env s str =
      { bloom_add (bloom_add s 0 (bloom_hashes env s 0 str)) 1
          (bloom_hashes env (bloom_add s 0 (bloom_hashes env s 0 str)) 1 str) with
        bloom_members :=
          (bloom_add (bloom_add s 0 (bloom_hashes env s 0 str)) 1
            (bloom_hashes env (bloom_add s 0 (bloom_hashes env s 0 str)) 1 str)).bloom_members + 1 } := by
  simp [bloom_add_str, NUM_HASHES, List.range_succ]

theorem bloom_hashes_congr (env : Env) (s t : State) (i : Nat) (str : Str)
    (h : s.conf_bloom_bits = t.conf_bloom_bits) :
    bloom_hashes env s i str = bloom_hashes env t i str := by
  cases i with
  | zero => simp [bloom_hashes, bloom_hash_fnv, h]
  | succ n => simp [bloom_hashes]

theorem bloom_index_congr (s t : State) (hash : Nat) (h1 : s.bloom_salt = t.bloom_salt)
    (h2 : s.bloom_size = t.bloom_size) : bloom_index s hash = bloom_index t hash := by
  simp [bloom_index, h1, h2]

theorem filter_bit_congr (s t : State) (i idx : Nat) (h : s.bloom = t.bloom) :
    filter_bit s i idx = filter_bit t i idx := by
  simp [filter_bit, h]

theorem bloom_add_str_frame (env : Env) (s : State) (str : Str) :
    (bloom_add_str env s str).bloom_salt = s.bloom_salt ∧
    (bloom_add_str env s str).bloom_size = s.bloom_size ∧
    (bloom_add_str env s str).bloom_members = s.bloom_members + 1 ∧
    (bloom_add_str env s str).bloom_flushed = s.bloom_flushed ∧
    (bloom_add_str env s str).chans = s.chans ∧
    (bloom_add_str env s str).conf_limit = s.conf_limit ∧
    (bloom_add_str env s str).conf_nicklen_min = s.conf_nicklen_min ∧
    (bloom_add_str env s str).conf_bloom_size = s.conf_bloom_size ∧
    (bloom_add_str env s str).conf_bloom_bits = s.conf_bloom_bits ∧
    (bloom_add_str env s str).conf_bloom_refresh = s.conf_bloom_refresh := by
  rw [bloom_add_str_eq]
  obtain ⟨a1, a2, a3, a4, a5, a6, a7, a8, a9, a10⟩ := bloom_add_frame s 0 (bloom_hashes env s 0 str)
  obtain ⟨b1, b2, b3, b4, b5, b6, b7, b8, b9, b10⟩ :=
    bloom_add_frame (bloom_add s 0 (bloom_hashes env s 0 str)) 1
      (bloom_hashes env (bloom_add s 0 (bloom_hashes env s 0 str)) 1 str)
  simp only [b1, b2, b3, b4, b5, b6, b7, b8, b9, b10, a1, a2, a3, a4, a5, a6, a7, a8, a9, a10,
    and_self]

theorem bloom_add_str_shape (env : Env) (s : State) (str : Str) (i : Nat) :
    ((bloom_add_str env s str).bloom.getD i none).map List.length =
      (s.bloom.getD i none).map List.length := by
  rw [bloom_add_str_eq]
  simp only [bloom_add_shape]

theorem bloom_add_str_active (env : Env) (s : State) (str : Str) (h : Active s) :
    Active (bloom_add_str env s str) := by
  obtain ⟨h0, h1, h2⟩ := h
  obtain ⟨_, f2, _⟩ := bloom_add_str_frame env s str
  refine ⟨by rw [f2]; exact h0, by rw [f2]; exact h1, fun i hi => ?_⟩
  rw [bloom_add_str_shape, f2]
  exact h2 i hi

theorem bloom_add_str_mono (env : Env) (s : State) (str : Str) (i idx : Nat)
    (h : filter_bit s i idx = true) : filter_bit (bloom_add_str env s str) i idx = true := by
  rw [bloom_add_str_eq]
  have := filter_bit_bloom_add_mono _ 1
    (bloom_hashes env (bloom_add s 0 (bloom_hashes env s 0 str)) 1 str) i idx
    (filter_bit_bloom_add_mono s 0 (bloom_hashes env s 0 str) i idx h)
  rw [← this]
  exact filter_bit_congr _ _ _ _ rfl

theorem active_filter (s : State) (h : Active s) (i : Nat) (hi : i < NUM_HASHES) :
    ∃ mem, s.bloom.getD i none = some mem ∧ mem.length = s.bloom_size := by
  have := h.2.2 i hi
  cases hm : s.bloom.getD i none with
  | none => rw [hm] at this; cases this
  | some mem =>
    rw [hm] at this
    exact ⟨mem, rfl, Option.some.inj this⟩

theorem bloom_test_str_congr (env : Env) (s t : State) (str : Str)
    (h1 : s.bloom_salt = t.bloom_salt) (h2 : s.bloom_size = t.bloom_size)
    (h3 : s.conf_bloom_bits = t.conf_bloom_bits)
    (h4 : ∀ i idx, filter_bit s i idx = true → filter_bit t i idx = true)
    (h : bloom_test_str env s str = 1) : bloom_test_str env t str = 1 := by
  rw [bloom_test_str_eq] at h ⊢
  rw [← bloom_hashes_congr env s t 0 str h3, ← bloom_hashes_congr env s t 1 str h3,
    ← bloom_index_congr s t _ h1 h2, ← bloom_index_congr s t _ h1 h2]
  split at h
  · rename_i hb
    simp only [Bool.and_eq_true] at hb
    simp [h4 _ _ hb.1, h4 _ _ hb.2]
  · simp at h

theorem bloom_test_str_add_other (env : Env) (s : State) (str other : Str)
    (h : bloom_test_str env s str = 1) :
    bloom_test_str env (bloom_add_str env s other) str = 1 := by
  obtain ⟨f1, f2, _, _, _, _, _, _, f9, _⟩ := bloom_add_str_frame env s other
  exact bloom_test_str_congr env s _ str f1.symm f2.symm f9.symm
    (fun i idx hb => bloom_add_str_mono env s other i idx hb) h

theorem bloom_test_str_add_self (env : Env) (s : State) (str : Str) (h : Active s) :
    bloom_test_str env (bloom_add_str env s str) str = 1 := by
  obtain ⟨f1, f2, _, _, _, _, _, _, f9, _⟩ := bloom_add_str_frame env s str
  rw [bloom_test_str_eq]
  rw [bloom_hashes_congr env _ s 0 str f9, bloom_hashes_congr env _ s 1 str f9,
    bloom_index_congr _ s _ f1 f2, bloom_index_congr _ s _ f1 f2]
  obtain ⟨m0, hm0, hl0⟩ := active_filter s h 0 (by decide)
  have a1 := bloom_add_frame s 0 (bloom_hashes env s 0 str)
  have hs1 : Active (bloom_add s 0 (bloom_hashes env s 0 str)) := by
    refine ⟨by rw [a1.2.1]; exact h.1, by rw [a1.2.1]; exact h.2.1, fun i hi => ?_⟩
    rw [bloom_add_shape, a1.2.1]; exact h.2.2 i hi
  obtain ⟨m1, hm1, hl1⟩ := active_filter _ hs1 1 (by decide)
  have b0 : filter_bit (bloom_add s 0 (bloom_hashes env s 0 str)) 0
      (bloom_index s (bloom_hashes env s 0 str)) = true :=
    filter_bit_bloom_add_self s 0 _ m0 hm0 (by rw [hl0]; exact bloom_index_lt s _ h.1 h.2.1)
  have e1 : bloom_hashes env (bloom_add s 0 (bloom_hashes env s 0 str)) 1 str =
      bloom_hashes env s 1 str := bloom_hashes_congr env _ s 1 str a1.2.2.2.2.2.2.2.2.1
  have i1 : bloom_index (bloom_add s 0 (bloom_hashes env s 0 str)) (bloom_hashes env s 1 str) =
      bloom_index s (bloom_hashes env s 1 str) := bloom_index_congr _ s _ a1.1 a1.2.1
  have b1 : filter_bit (bloom_add (bloom_add s 0 (bloom_hashes env s 0 str)) 1
      (bloom_hashes env s 1 str)) 1 (bloom_index s (bloom_hashes env s 1 str)) = true := by
    rw [← i1]
    exact filter_bit_bloom_add_self _ 1 _ m1 hm1
      (by rw [hl1]; exact bloom_index_lt _ _ hs1.1 hs1.2.1)
  have b0' := filter_bit_bloom_add_mono _ 1 (bloom_hashes env s 1 str) 0 _ b0
  have c0 : filter_bit (bloom_add_str env s str) 0 (bloom_index s (bloom_hashes env s 0 str)) =
      true := by
    rw [← b0', bloom_add_str_eq, e1]; exact filter_bit_congr _ _ _ _ rfl
  have c1 : filter_bit (bloom_add_str env s str) 1 (bloom_index s (bloom_hashes env s 1 str)) =
      true := by
    rw [← b1, bloom_add_str_eq, e1]; exact filter_bit_congr _ _ _ _ rfl
  simp [c0, c1]

theorem foldl_add_str_active (env : Env) (toks : List Str) (s : State) (h : Active s) :
    Active (toks.foldl (bloom_add_str env) s) := by
  induction toks generalizing s with
  | nil => exact h
  | cons t ts ih => exact ih _ (bloom_add_str_active env s t h)

theorem foldl_add_str_keeps (env : Env) (toks : List Str) (s : State) (str : Str)
    (h : bloom_test_str env s str = 1) :
    bloom_test_str env (toks.foldl (bloom_add_str env) s) str = 1 := by
  induction toks generalizing s with
  | nil => exact h
  | cons t ts ih => exact ih _ (bloom_test_str_add_other env s str t h)

theorem foldl_add_str_tests (env : Env) (toks : List Str) (s : State) (h : Active s)
    (str : Str) (hmem : str ∈ toks) :
    bloom_test_str env (toks.foldl (bloom_add_str env) s) str = 1 := by
  induction toks generalizing s with
  | nil => cases hmem
  | cons t ts ih =>
    rcases List.mem_cons.mp hmem with rfl | hin
    · exact foldl_add_str_keeps env ts _ _ (bloom_test_str_add_self env s _ h)
    · exact ih _ (bloom_add_str_active env s t h) hin

/-- C1. No false negatives: in an active store, after any sequence of
`bloom_add_str` calls, `bloom_test_str` answers 1 for every token of the
sequence, whatever was added before or after it. -/
theorem bloom_no_false_negative (env : Env) (s : State) (hs : Active s) (toks : List Str)
    (T : Str) (hT : T ∈ toks) :
    bloom_test_str env (toks.foldl (bloom_add_str env) s) T = 1 :=
  foldl_add_str_tests env toks s hs T hT

theorem bloom_no_false_negative_witness :
    Active (sample_state 2) ∧ bytes "bob" ∈ [bytes "alice", bytes "bob", bytes "carol"] ∧
      bloom_test_str sample_env
        ([bytes "alice", bytes "bob", bytes "carol"].foldl (bloom_add_str sample_env)
          (sample_state 2)) (bytes "bob") = 1 :=
  ⟨by decide, by decide,
    bloom_no_false_negative sample_env (sample_state 2) (by decide) _ _ (by decide)⟩

/-- C2. AND semantics: `bloom_test_str` answers 1 exactly when, in each of
the `NUM_HASHES` filters, the bit selected by that filter's hash of the token
is set; it answers 0 or 1, and a token whose bit is set in one filter only
tests negative. -/
theorem bloom_test_str_and_semantics (env : Env) (s : State) (token : Str) :
    (bloom_test_str env s token = 1 ↔
      ∀ i, i < NUM_HASHES →
        filter_bit s i (bloom_index s (bloom_hashes env s i token)) = true) ∧
    (bloom_test_str env s token ≠ 1 ↔ bloom_test_str env s token = 0) ∧
    ((filter_bit s 0 (bloom_index s (bloom_hashes env s 0 token)) = false ∨
      filter_bit s 1 (bloom_index s (bloom_hashes env s 1 token)) = false) ↔
      bloom_test_str env s token = 0) := by
  rw [bloom_test_str_eq]
  cases h0 : filter_bit s 0 (bloom_index s (bloom_hashes env s 0 token)) <;>
    cases h1 : filter_bit s 1 (bloom_index s (bloom_hashes env s 1 token)) <;>
    simp only [NUM_HASHES] <;>
    refine ⟨⟨fun h => ?_, fun h => ?_⟩, ?_, ?_⟩ <;> simp_all
  intro i hi
  interval_cases i <;> simp_all

theorem bloom_test_str_and_semantics_witness :
    filter_bit (bloom_add (sample_state 2) 0 (bloom_hashes sample_env (sample_state 2) 0 (bytes "bob"))) 0
        (bloom_index (sample_state 2) (bloom_hashes sample_env (sample_state 2) 0 (bytes "bob"))) = true ∧
      bloom_test_str sample_env
        (bloom_add (sample_state 2) 0 (bloom_hashes sample_env (sample_state 2) 0 (bytes "bob")))
        (bytes "bob") = 0 :=
  ⟨by decide,
    (bloom_test_str_and_semantics sample_env
      (bloom_add (sample_state 2) 0 (bloom_hashes sample_env (sample_state 2) 0 (bytes "bob")))
      (bytes "bob")).2.2.mp (Or.inr (by decide))⟩

/-! ## Tokenizer -/

theorem count_nicks_loop_eq (env : Env) (w : World) (s : State) (text : Str) (chptr : Channel)
    (len : Nat) (fuel i j k : Nat) (acc : Scan) :
    count_nicks_loop env w s text chptr len fuel i j k acc =
      (scan_visits text len fuel i j k).foldl
        (fun a v => count_nicks_delim env w s text chptr v.1 v.2 a) acc := by
  induction fuel generalizing i j k acc with
  | zero => rfl
  | succ n ih =>
    unfold count_nicks_loop scan_visits
    by_cases h1 : i + 6 < len
    · by_cases h2 : (is_delim (text.drop i) k).1 = 0
      · simp only [h1, h2, if_true]; exact ih _ _ _ _
      · simp only [h1, h2, if_true, if_false, List.foldl_cons]; exact ih _ _ _ _
    · simp only [h1, if_false, List.foldl_nil]

theorem scan_visits_fuel (text : Str) (len : Nat) (n fuel i j k : Nat) (h : len ≤ i + fuel) :
    scan_visits text len (fuel + n) i j k = scan_visits text len fuel i j k := by
  induction fuel generalizing i j k with
  | zero =>
    cases n with
    | zero => rfl
    | succ m =>
      have : ¬ i + 6 < len := by omega
      simp [scan_visits, this]
  | succ f ih =>
    rw [show f + 1 + n = (f + n) + 1 by omega]
    unfold scan_visits
    by_cases h1 : i + 6 < len
    · by_cases h2 : (is_delim (text.drop i) k).1 = 0
      · simp only [h1, h2, if_true]; exact ih _ _ _ (by omega)
      · simp only [h1, h2, if_true, if_false]; rw [ih _ _ _ (by omega)]
    · simp only [h1, if_false]

theorem is_delim_fst (ptr : Str) (k : Nat) : (is_delim ptr k).1 = (is_delim ptr 0).1 := by
  unfold is_delim
  dsimp only
  split_ifs <;> rfl

/-- Facts about every recorded visit: the run counted before it lies inside
the buffer, the scanner classified each byte of the run as a non-delimiter and
the byte at the visit as a delimiter, and the visit lies in the scanned part. -/
theorem scan_visits_spec (text : Str) (len : Nat) (fuel i j k : Nat) (hj : j ≤ i)
    (hrun : ∀ p, i - j ≤ p → p < i → delim_at text p = false) :
    ∀ v ∈ scan_visits text len fuel i j k,
      v.2 ≤ v.1 ∧ v.1 + 6 < len ∧ delim_at text v.1 = true ∧
        ∀ p, v.1 - v.2 ≤ p → p < v.1 → delim_at text p = false := by
  induction fuel generalizing i j k with
  | zero => intro v hv; simp [scan_visits] at hv
  | succ n ih =>
    intro v hv
    unfold scan_visits at hv
    by_cases h1 : i + 6 < len
    · by_cases h2 : (is_delim (text.drop i) k).1 = 0
      · simp only [h1, h2, if_true] at hv
        refine ih (i + 1) (j + 1) _ (by omega) (fun p hp1 hp2 => ?_) v hv
        by_cases hpi : p = i
        · subst hpi
          rw [is_delim_fst] at h2
          simp [delim_at, h2]
        · exact hrun p (by omega) (by omega)
      · simp only [h1, h2, if_true, if_false, List.mem_cons] at hv
        rcases hv with rfl | hv
        · refine ⟨hj, h1, ?_, hrun⟩
          rw [is_delim_fst] at h2
          simp [delim_at, h2]
        · exact ih _ 0 0 (by omega) (fun p hp1 hp2 => by omega) v hv
    · simp [h1] at hv

theorem count_nicks_delim_spec (env : Env) (w : World) (s : State) (text : Str)
    (chptr : Channel) (i j : Nat) (acc : Scan) :
    (count_nicks_delim env w s text chptr i j acc).visits = acc.visits ++ [(i, j)] ∧
    (count_nicks_delim env w s text chptr i j acc).tested =
      acc.tested ++ ([(i, j)].filter (fun v => in_window env s v.2)).map (token_at text) ∧
    (count_nicks_delim env w s text chptr i j acc).ret =
      acc.ret + ((([(i, j)].filter (fun v => in_window env s v.2)).map (token_at text)).filter
        (true_hit env w s chptr)).length ∧
    (count_nicks_delim env w s text chptr i j acc).reports =
      acc.reports ++ ((([(i, j)].filter (fun v => in_window env s v.2)).map (token_at text)).filter
        (false_hit env w s chptr)).map (fun _ => false_positive_message w s) := by
  unfold count_nicks_delim
  by_cases hw : j ≥ s.conf_nicklen_min ∧ j ≤ env.NICKLEN
  · have hw' : in_window env s j = true := by simp [in_window, hw.1, hw.2]
    by_cases hp : prob_test_token env s (rb_strlcpy (text.drop (i - j)) (j + 1)) ≠ 0
    · by_cases hr : real_test_token w (rb_strlcpy (text.drop (i - j)) (j + 1)) chptr ≠ 0
      · simp [hw, hw', hp, hr, token_at, true_hit, false_hit, List.filter_cons]
      · have hr' : real_test_token w (rb_strlcpy (text.drop (i - j)) (j + 1)) chptr = 0 := by
          simpa using hr
        simp [hw, hw', hp, hr', token_at, true_hit, false_hit, List.filter_cons]
    · simp [hw, hw', hp, token_at, true_hit, false_hit, List.filter_cons]
  · have hw' : in_window env s j = false := by
      simp only [in_window, Bool.and_eq_false_imp, decide_eq_true_eq, decide_eq_false_iff_not]
      intro h1 h2; exact hw ⟨h1, h2⟩
    simp [hw, hw', List.filter_cons]

theorem visits_foldl_spec (env : Env) (w : World) (s : State) (text : Str) (chptr : Channel)
    (V : List (Nat × Nat)) (acc : Scan) :
    (V.foldl (fun a v => count_nicks_delim env w s text chptr v.1 v.2 a) acc).visits =
      acc.visits ++ V ∧
    (V.foldl (fun a v => count_nicks_delim env w s text chptr v.1 v.2 a) acc).tested =
      acc.tested ++ (V.filter (fun v => in_window env s v.2)).map (token_at text) ∧
    (V.foldl (fun a v => count_nicks_delim env w s text chptr v.1 v.2 a) acc).ret =
      acc.ret + (((V.filter (fun v => in_window env s v.2)).map (token_at text)).filter
        (true_hit env w s chptr)).length ∧
    (V.foldl (fun a v => count_nicks_delim env w s text chptr v.1 v.2 a) acc).reports =
      acc.reports ++ (((V.filter (fun v => in_window env s v.2)).map (token_at text)).filter
        (false_hit env w s chptr)).map (fun _ => false_positive_message w s) := by
  induction V generalizing acc with
  | nil => simp
  | cons v vs ih =>
    obtain ⟨a1, a2, a3, a4⟩ := count_nicks_delim_spec env w s text chptr v.1 v.2 acc
    obtain ⟨b1, b2, b3, b4⟩ := ih (count_nicks_delim env w s text chptr v.1 v.2 acc)
    simp only [List.foldl_cons]
    rw [b1, b2, b3, b4, a1, a2, a3, a4]
    have hsplit : (v :: vs).filter (fun v => in_window env s v.2) =
        [(v.1, v.2)].filter (fun v => in_window env s v.2) ++
          vs.filter (fun v => in_window env s v.2) := by
      rw [show v :: vs = [(v.1, v.2)] ++ vs from rfl, List.filter_append]
    rw [hsplit]
    simp only [List.map_append, List.filter_append, List.length_append, List.append_assoc]
    refine ⟨by simp, trivial, by omega, trivial⟩

/-- The records of a run of `count_nicks`, in terms of its visits. -/
theorem count_nicks_scan_spec (env : Env) (w : World) (s : State) (text : Str)
    (chptr : Channel) :
    (count_nicks_scan env w s text chptr).visits =
      scan_visits text (strlen text) (strlen text) 0 0 0 ∧
    (count_nicks_scan env w s text chptr).tested =
      ((scan_visits text (strlen text) (strlen text) 0 0 0).filter
        (fun v => in_window env s v.2)).map (token_at text) ∧
    (count_nicks_scan env w s text chptr).ret =
      ((count_nicks_scan env w s text chptr).tested.filter (true_hit env w s chptr)).length ∧
    (count_nicks_scan env w s text chptr).reports =
      ((count_nicks_scan env w s text chptr).tested.filter (false_hit env w s chptr)).map
        (fun _ => false_positive_message w s) := by
  unfold count_nicks_scan
  rw [count_nicks_loop_eq]
  obtain ⟨a1, a2, a3, a4⟩ := visits_foldl_spec env w s text chptr
    (scan_visits text (strlen text) (strlen text) 0 0 0) Scan.empty
  rw [a1, a2, a3, a4]
  simp [Scan.empty]

theorem takeWhile_drop {α : Type} (p : α → Bool) (l : List α) (n : Nat)
    (h : n ≤ (l.takeWhile p).length) : (l.drop n).takeWhile p = (l.takeWhile p).drop n := by
  induction l generalizing n with
  | nil => simp
  | cons a as ih =>
    cases n with
    | zero => simp
    | succ m =>
      by_cases hp : p a = true
      · simp only [List.takeWhile_cons, hp, if_true, List.length_cons] at h
        simp only [List.drop_succ_cons, List.takeWhile_cons, hp, if_true]
        exact ih m (by omega)
      · simp [List.takeWhile_cons, hp] at h

theorem token_at_eq (text : Str) (i j : Nat) (hj : j ≤ i) (hi : i ≤ strlen text) :
    token_at text (i, j) = slice_before text i j ∧ (slice_before text i j).length = j := by
  unfold token_at slice_before rb_strlcpy
  simp only [Nat.add_sub_cancel]
  have hc : cstr (text.drop (i - j)) = (cstr text).drop (i - j) :=
    takeWhile_drop _ text (i - j) (by unfold strlen cstr at hi; omega)
  have hsplit : text = cstr text ++ text.dropWhile (fun b => b != 0) :=
    (List.takeWhile_append_dropWhile _ text).symm
  have hlen : j ≤ ((cstr text).drop (i - j)).length := by
    rw [List.length_drop]; unfold strlen at hi; omega
  have h2 : (text.drop (i - j)).take j = ((cstr text).drop (i - j)).take j := by
    conv_lhs => rw [hsplit]
    rw [List.drop_append_of_le_length (by unfold strlen at hi; omega),
      List.take_append_of_le_length hlen]
  rw [hc, h2]
  refine ⟨rfl, ?_⟩
  rw [List.length_take]
  omega

theorem mb_len_ascii : ∀ b, b < 128 → mb_len b = 0 := by decide

theorem is_delim_ascii (ptr : Str) (k : Nat) (h : ptr.getD 0 0 < 128) :
    is_delim ptr k = (if ascii_delim (ptr.getD 0 0) then 1 else 0, k) := by
  unfold is_delim
  by_cases h1 : ascii_delim (ptr.getD 0 0) = true
  · rw [if_pos h1, if_pos h1]
  · rw [if_neg h1, if_neg h1]
    simp only [mb_len_ascii _ h]
    rfl

theorem cstr_of_nonzero (text : Str) (h : ∀ b ∈ text, b ≠ 0) : cstr text = text := by
  unfold cstr
  rw [List.takeWhile_eq_self_iff]
  intro b hb
  simpa using h b hb

theorem drop_getD_zero (text : Str) (i : Nat) : (text.drop i).getD 0 0 = text.getD i 0 := by
  simp [List.getD_eq_getElem?_getD, List.getElem?_drop]

theorem slice_before_succ (text : Str) (i j : Nat) (hj : j ≤ i) (hi : i < text.length) :
    slice_before text (i + 1) (j + 1) = slice_before text i j ++ [text.getD i 0] := by
  unfold slice_before
  rw [show i + 1 - (j + 1) = i - j by omega, List.take_succ]
  congr 1
  rw [List.getElem?_drop, show i - j + j = i by omega, List.getD_eq_getElem?_getD,
    List.getElem?_eq_getElem hi]
  rfl

theorem take_drop_cons (text : Str) (m i : Nat) (h1 : i < m) (h2 : m ≤ text.length) :
    (text.take m).drop i = text.getD i 0 :: (text.take m).drop (i + 1) := by
  have hl : i < (text.take m).length := by rw [List.length_take]; omega
  rw [List.drop_eq_getElem_cons hl, List.getElem_take, List.getD_eq_getElem?_getD,
    List.getElem?_eq_getElem (by omega)]
  rfl

theorem take_drop_nil (text : Str) (m i : Nat) (h : m ≤ i) : (text.take m).drop i = [] := by
  apply List.drop_eq_nil_of_le
  rw [List.length_take]; omega

/-- On ASCII text the scanner lists exactly the delimiter-terminated runs of
the bytes it classifies. -/
theorem scan_visits_ascii (text : Str) (hascii : ∀ b ∈ text, b < 128) (len : Nat)
    (hlen : len ≤ text.length) (win : Nat → Bool) (fuel i j : Nat) (hj : j ≤ i)
    (hfuel : len ≤ i + fuel) :
    ((scan_visits text len fuel i j 0).filter (fun v => win v.2)).map
        (fun v => slice_before text v.1 v.2) =
      (terminated_runs ascii_delim ((text.take (len - 6)).drop i) (slice_before text i j)).filter
        (fun t => win t.length) := by
  induction fuel generalizing i j with
  | zero =>
    rw [take_drop_nil text _ _ (by omega)]
    simp [scan_visits, terminated_runs]
  | succ n ih =>
    unfold scan_visits
    by_cases h1 : i + 6 < len
    · have hi : i < text.length := by omega
      have hb : (text.drop i).getD 0 0 < 128 := by
        rw [drop_getD_zero, List.getD_eq_getElem?_getD, List.getElem?_eq_getElem hi]
        exact hascii _ (List.getElem_mem _)
      rw [take_drop_cons text (len - 6) i (by omega) (by omega)]
      rw [is_delim_ascii _ _ hb, drop_getD_zero]
      unfold terminated_runs
      by_cases hd : ascii_delim (text.getD i 0) = true
      · have hsl : (slice_before text i j).length = j := by
          unfold slice_before; rw [List.length_take, List.length_drop]; omega
        have hnil : slice_before text (i + 1) 0 = [] := by simp [slice_before]
        have := ih (i + 1) 0 (by omega) (by omega)
        rw [hnil] at this
        simp only [h1, hd, if_true, Nat.add_zero]
        by_cases hw : win j = true
        · simp [List.filter_cons, hw, hsl, this]
        · simp [List.filter_cons, hw, hsl, this]
      · have := ih (i + 1) (j + 1) (by omega) (by omega)
        rw [slice_before_succ text i j hj hi] at this
        simp only [h1, hd, if_true]
        simpa using this
    · rw [take_drop_nil text _ _ (by omega)]
      simp [h1, terminated_runs]

theorem tested_eq_slices (env : Env) (w : World) (s : State) (text : Str) (chptr : Channel) :
    (count_nicks_scan env w s text chptr).tested =
      ((count_nicks_scan env w s text chptr).visits.filter (fun v => in_window env s v.2)).map
        (fun v => slice_before text v.1 v.2) := by
  obtain ⟨a1, a2, _, _⟩ := count_nicks_scan_spec env w s text chptr
  rw [a2, a1]
  apply List.map_congr_left
  intro v hv
  have hv' := (List.mem_filter.mp hv).1
  obtain ⟨b1, b2, _, _⟩ := scan_visits_spec text (strlen text) (strlen text) 0 0 0 (le_refl _)
    (fun p _ hp => by omega) v hv'
  exact (token_at_eq text v.1 v.2 b1 (by omega)).1

theorem tested_ascii (env : Env) (w : World) (s : State) (text : Str) (chptr : Channel)
    (hascii : ∀ b ∈ text, 0 < b ∧ b < 128) :
    (count_nicks_scan env w s text chptr).tested =
      (terminated_runs ascii_delim (text.take (text.length - 6)) []).filter
        (fun t => in_window env s t.length) := by
  have hlen : strlen text = text.length := by
    unfold strlen; rw [cstr_of_nonzero text (fun b hb => by have := (hascii b hb).1; omega)]
  rw [tested_eq_slices, (count_nicks_scan_spec env w s text chptr).1, hlen]
  have := scan_visits_ascii text (fun b hb => (hascii b hb).2) text.length (le_refl _)
    (fun j => in_window env s j) text.length 0 0 (le_refl _) (by omega)
  simpa [slice_before] using this

/-- The loop of `count_nicks` is finished after `strlen(text)` iterations:
more fuel does not change the run. -/
theorem count_nicks_fuel (env : Env) (w : World) (s : State) (text : Str) (chptr : Channel)
    (n : Nat) :
    count_nicks_loop env w s text chptr (strlen text) (strlen text + n) 0 0 0 Scan.empty =
      count_nicks_scan env w s text chptr := by
  unfold count_nicks_scan
  rw [count_nicks_loop_eq, count_nicks_loop_eq, scan_visits_fuel _ _ _ _ _ _ _ (by omega)]

theorem hook_spamfilter_query_eq (env : Env) (w : World) (s : State)
    (hook : hook_data_privmsg_channel) (happ : hook.approved = 0)
    (hact : (s.bloom.getD 0 none).isSome = true) :
    hook_spamfilter_query env w s hook =
      (if count_nicks env w s hook.text hook.chptr < s.conf_limit then hook
        else { hook with
          reason := some (reason_text (count_nicks env w s hook.text hook.chptr)),
          approved := -1 },
        count_nicks_scan env w s hook.text hook.chptr) := by
  unfold hook_spamfilter_query count_nicks
  have hn : (s.bloom.getD 0 none).isNone = false := by
    cases h : s.bloom.getD 0 none with
    | none => rw [h] at hact; cases hact
    | some m => rfl
  simp only [happ, hn, ne_eq, not_true_eq_false, if_false, Bool.false_eq_true]
  split <;> rfl

/-- C3. Suppression decision: for a hook with `approved == 0` and an
allocated store, `hook_spamfilter_query` sets `approved = -1` and the reason
"nicks: counted at least n names", n the decimal count, exactly when
`count_nicks` is at least `conf_limit`; otherwise it returns the hook data
unchanged. -/
theorem hook_spamfilter_query_decision (env : Env) (w : World) (s : State)
    (hook : hook_data_privmsg_channel) (happ : hook.approved = 0)
    (hact : (s.bloom.getD 0 none).isSome = true) :
    (((hook_spamfilter_query env w s hook).1.approved = -1 ∧
        (hook_spamfilter_query env w s hook).1.reason =
          some ("nicks: counted at least " ++
            toString (count_nicks env w s hook.text hook.chptr) ++ " names")) ↔
      count_nicks env w s hook.text hook.chptr ≥ s.conf_limit) ∧
    (count_nicks env w s hook.text hook.chptr ≥ s.conf_limit →
      (hook_spamfilter_query env w s hook).1 =
        { hook with
          reason := some ("nicks: counted at least " ++
            toString (count_nicks env w s hook.text hook.chptr) ++ " names"),
          approved := -1 }) ∧
    (count_nicks env w s hook.text hook.chptr < s.conf_limit →
      (hook_spamfilter_query env w s hook).1 = hook) := by
  rw [hook_spamfilter_query_eq env w s hook happ hact]
  by_cases h : count_nicks env w s hook.text hook.chptr < s.conf_limit
  · rw [if_pos h]
    refine ⟨⟨fun hh => ?_, fun hh => ?_⟩, fun hh => ?_, fun _ => rfl⟩
    · rw [happ] at hh; exact absurd hh.1 (by decide)
    · omega
    · omega
  · rw [if_neg h]
    refine ⟨⟨fun _ => by omega, fun _ => ⟨rfl, rfl⟩⟩, fun _ => rfl, fun hh => absurd hh h⟩

theorem hook_spamfilter_query_decision_witness :
    (sample_hook [] (bytes "hello, world of text")).approved = 0 ∧
      (hook_spamfilter_query sample_env (sample_world []) (sample_state 2)
        (sample_hook [] (bytes "hello, world of text"))).1 =
        sample_hook [] (bytes "hello, world of text") :=
  ⟨by decide,
    (hook_spamfilter_query_decision sample_env (sample_world []) (sample_state 2)
      (sample_hook [] (bytes "hello, world of text")) (by decide) (by decide)).2.2 (by decide)⟩

/-- C5, as stated, fails: with minimum length 3 the scanner tests `alice`
and `bob` in "alice, bob!!charlie" and never `charlie`. -/
theorem count_nicks_tokens_counterexample :
    (count_nicks_scan sample_env (sample_world [])
        { sample_state 2 with conf_nicklen_min := 3 } (bytes "alice, bob!!charlie")
        (sample_channel [])).tested = [bytes "alice", bytes "bob"] ∧
    (count_nicks_scan sample_env (sample_world [])
        { sample_state 2 with conf_nicklen_min := 3 } (bytes "alice, bob!!charlie")
        (sample_channel [])).tested ≠ [bytes "alice", bytes "bob", bytes "charlie"] := by
  decide

/-- C5, amended. For NUL-free ASCII text the tokens `count_nicks` tests are,
in order of appearance, the runs of non-delimiter bytes that a delimiter
terminates within the scanned part of the text (the bytes at indices `i` with
`i + 6 < len`) and whose length lies in the window. -/
theorem count_nicks_tokens_ascii (env : Env) (w : World) (s : State) (text : Str)
    (chptr : Channel) (hascii : ∀ b ∈ text, 0 < b ∧ b < 128) :
    (count_nicks_scan env w s text chptr).tested =
      (terminated_runs ascii_delim (text.take (text.length - 6)) []).filter
        (fun t => decide (s.conf_nicklen_min ≤ t.length) && decide (t.length ≤ env.NICKLEN)) :=
  tested_ascii env w s text chptr hascii

theorem count_nicks_tokens_ascii_witness :
    (∀ b ∈ bytes "alice, bob!!charlie       ", 0 < b ∧ b < 128) ∧
    (count_nicks_scan sample_env (sample_world [])
        { sample_state 2 with conf_nicklen_min := 3 } (bytes "alice, bob!!charlie       ")
        (sample_channel [])).tested = [bytes "alice", bytes "bob", bytes "charlie"] :=
  ⟨by decide,
    (count_nicks_tokens_ascii sample_env (sample_world [])
      { sample_state 2 with conf_nicklen_min := 3 } (bytes "alice, bob!!charlie       ")
      (sample_channel []) (by decide)).trans (by decide)⟩

/-- The length window in terms of the scanner's own count: the tokens
`count_nicks` tests are exactly the slices `text[i-j .. i-1]` for the
delimiters it meets at an index `i` after counting `j` bytes with
`conf_nicklen_min <= j <= NICKLEN`; each such slice has length `j`, consists
of bytes classified as non-delimiters and ends just before the delimiter at
`i`, which lies in the scanned part. Nothing is said here about the byte
before the slice: the counted bytes need not be a whole run of the text. -/
theorem count_nicks_length_window (env : Env) (w : World) (s : State) (text : Str)
    (chptr : Channel) :
    (count_nicks_scan env w s text chptr).tested =
      ((count_nicks_scan env w s text chptr).visits.filter
        (fun v => decide (s.conf_nicklen_min ≤ v.2) && decide (v.2 ≤ env.NICKLEN))).map
        (fun v => (text.drop (v.1 - v.2)).take v.2) ∧
    (∀ v ∈ (count_nicks_scan env w s text chptr).visits,
      v.2 ≤ v.1 ∧ v.1 + 6 < strlen text ∧ delim_at text v.1 = true ∧
        ((text.drop (v.1 - v.2)).take v.2).length = v.2 ∧
        ∀ p, v.1 - v.2 ≤ p → p < v.1 → delim_at text p = false) ∧
    (∀ t ∈ (count_nicks_scan env w s text chptr).tested,
      s.conf_nicklen_min ≤ t.length ∧ t.length ≤ env.NICKLEN ∧
        ∃ i, t.length ≤ i ∧ i + 6 < strlen text ∧ delim_at text i = true ∧
          t = (text.drop (i - t.length)).take t.length) := by
  have hvis : ∀ v ∈ (count_nicks_scan env w s text chptr).visits,
      v.2 ≤ v.1 ∧ v.1 + 6 < strlen text ∧ delim_at text v.1 = true ∧
        ((text.drop (v.1 - v.2)).take v.2).length = v.2 ∧
        ∀ p, v.1 - v.2 ≤ p → p < v.1 → delim_at text p = false := by
    intro v hv
    rw [(count_nicks_scan_spec env w s text chptr).1] at hv
    obtain ⟨b1, b2, b3, b4⟩ := scan_visits_spec text (strlen text) (strlen text) 0 0 0
      (le_refl _) (fun p _ hp => by omega) v hv
    exact ⟨b1, b2, b3, (token_at_eq text v.1 v.2 b1 (by omega)).2, b4⟩
  refine ⟨tested_eq_slices env w s text chptr, hvis, fun t ht => ?_⟩
  rw [tested_eq_slices] at ht
  obtain ⟨v, hv, rfl⟩ := List.mem_map.mp ht
  obtain ⟨hv1, hv2⟩ := List.mem_filter.mp hv
  obtain ⟨b1, b2, b3, b4, _⟩ := hvis v hv1
  simp only [in_window, Bool.and_eq_true, decide_eq_true_eq] at hv2
  have hl : (slice_before text v.1 v.2).length = v.2 := b4
  rw [hl]
  exact ⟨hv2.1, hv2.2, v.1, b1, b2, b3, rfl⟩

theorem count_nicks_length_window_witness :
    (count_nicks_scan sample_env (sample_world []) (sample_state 2)
        (bytes "ed, alice, trailing") (sample_channel [])).visits =
      [(2, 2), (3, 0), (9, 5), (10, 0)] ∧
    (count_nicks_scan sample_env (sample_world []) (sample_state 2)
        (bytes "ed, alice, trailing") (sample_channel [])).tested = [bytes "alice"] :=
  ⟨by decide,
    (count_nicks_length_window sample_env (sample_world []) (sample_state 2)
      (bytes "ed, alice, trailing") (sample_channel [])).1.trans (by decide)⟩

set_option maxRecDepth 100000 in
/-- C6, the code at a failing input. The text is the two-byte sequence C3 A9,
a space, a run of 32 letters, a space and seven filler bytes, and `NICKLEN` is
31. The run of 32 letters lies between the delimiters at indices 2 and 35 and
is longer than `NICKLEN`, yet the scanner tests its last 31 bytes: the advance
of 1 left pending by the byte C3 is applied after the space at index 2, so the
letter at index 3 is never counted and the delimiter at index 35 is met after
a count of 31. -/
theorem count_nicks_long_run_truncated :
    sample_env.NICKLEN = 31 ∧ (sample_state 2).conf_nicklen_min = 4 ∧
    delim_at sample_long_run_text 2 = true ∧ delim_at sample_long_run_text 35 = true ∧
    (∀ p < 35, 3 ≤ p → delim_at sample_long_run_text p = false) ∧
    slice_before sample_long_run_text 35 32 = bytes "ABCDEFGHIJKLMNOPQRSTUVWXYZabcdef" ∧
    (slice_before sample_long_run_text 35 32).length = 32 ∧
    (count_nicks_scan sample_env (sample_world []) (sample_state 2)
        sample_long_run_text (sample_channel [])).visits = [(2, 2), (35, 31)] ∧
    (count_nicks_scan sample_env (sample_world []) (sample_state 2)
        sample_long_run_text (sample_channel [])).tested =
      [bytes "BCDEFGHIJKLMNOPQRSTUVWXYZabcdef"] ∧
    (bytes "BCDEFGHIJKLMNOPQRSTUVWXYZabcdef").length = 31 := by
  decide

/-- C7, the code at a failing input. The text starts with the two-byte
sequence C3 A9. The scanner does not skip it: it classifies the continuation
byte at index 1 as well and counts both bytes into the run that the space at
index 2 ends. The pending advance of 1 is applied after that space, so the
byte `A` at index 3 is never classified and the token tested at the space at
index 8 is `BCDE`, not `ABCDE`. -/
theorem count_nicks_multibyte_skip :
    is_delim (sample_multibyte_text.drop 0) 0 = (0, 1) ∧
    (count_nicks_scan sample_env (sample_world []) (sample_state 2)
        sample_multibyte_text (sample_channel [])).visits = [(2, 2), (8, 4)] ∧
    (count_nicks_scan sample_env (sample_world []) (sample_state 2)
        sample_multibyte_text (sample_channel [])).tested = [bytes "BCDE"] ∧
    delim_at sample_multibyte_text 2 = true ∧ delim_at sample_multibyte_text 3 = false := by
  decide

/-! ## Group registry and hooks -/

theorem foldl_add_str_frame (env : Env) (toks : List Str) (s : State) :
    (toks.foldl (bloom_add_str env) s).bloom_members = s.bloom_members + toks.length ∧
    (toks.foldl (bloom_add_str env) s).chans = s.chans ∧
    (toks.foldl (bloom_add_str env) s).bloom_size = s.bloom_size ∧
    (toks.foldl (bloom_add_str env) s).bloom_salt = s.bloom_salt ∧
    (toks.foldl (bloom_add_str env) s).bloom_flushed = s.bloom_flushed ∧
    (toks.foldl (bloom_add_str env) s).conf_limit = s.conf_limit ∧
    (toks.foldl (bloom_add_str env) s).conf_nicklen_min = s.conf_nicklen_min ∧
    (toks.foldl (bloom_add_str env) s).conf_bloom_size = s.conf_bloom_size ∧
    (toks.foldl (bloom_add_str env) s).conf_bloom_bits = s.conf_bloom_bits ∧
    (toks.foldl (bloom_add_str env) s).conf_bloom_refresh = s.conf_bloom_refresh := by
  induction toks generalizing s with
  | nil => simp
  | cons t ts ih =>
    obtain ⟨a1, a2, a3, a4, a5, a6, a7, a8, a9, a10⟩ := bloom_add_str_frame env s t
    obtain ⟨b1, b2, b3, b4, b5, b6, b7, b8, b9, b10⟩ := ih (bloom_add_str env s t)
    simp only [List.foldl_cons, List.length_cons]
    rw [b1, b2, b3, b4, b5, b6, b7, b8, b9, b10, a1, a2, a3, a4, a5, a6, a7, a8, a9, a10]
    refine ⟨by omega, rfl, rfl, rfl, rfl, rfl, rfl, rfl, rfl, rfl⟩

theorem chans_add_new (env : Env) (s : State) (chptr : Channel) (keys : List Str)
    (hreg : s.chans = some keys) (hnew : chan_key env chptr ∉ keys) :
    chans_add env s chptr =
      ((member_names chptr).foldl (bloom_add_str env)
        { s with chans := some (chan_key env chptr :: keys) }, 1) := by
  unfold chans_add irc_radixtree_add member_names
  unfold chan_key at hnew
  rw [hreg]
  simp only [hnew, if_false, List.foldl_map]
  rfl

theorem chans_add_known (env : Env) (s : State) (chptr : Channel) (keys : List Str)
    (hreg : s.chans = some keys) (hold : chan_key env chptr ∈ keys) :
    chans_add env s chptr = (s, 0) := by
  unfold chans_add irc_radixtree_add
  unfold chan_key at hold
  rw [hreg]
  simp only [hold, if_true]

theorem chans_has_eq (env : Env) (s : State) (chptr : Channel) (keys : List Str)
    (hreg : s.chans = some keys) :
    chans_has env s chptr = if chan_key env chptr ∈ keys then 1 else 0 := by
  unfold chans_has irc_radixtree_retrieve chan_key
  rw [hreg]
  simp

/-- C10. Seeding on first registration: on a group with N current members
whose canonical name is not in the registry, `chans_add` inserts the name,
runs `bloom_add_str` once per member, so that `bloom_members` grows by N, and
returns 1; on a group whose canonical name is in the registry it returns 0 and
leaves every global as it was. -/
theorem chans_add_seeding (env : Env) (s : State) (chptr : Channel) (keys : List Str)
    (hreg : s.chans = some keys) :
    (env.irccasecanon (cstr chptr.chname) ∉ keys →
      chans_add env s chptr =
        ((chptr.members.map (fun m => m.client_p.name)).foldl (bloom_add_str env)
          { s with chans := some (env.irccasecanon (cstr chptr.chname) :: keys) }, 1) ∧
      (chans_add env s chptr).1.chans = some (env.irccasecanon (cstr chptr.chname) :: keys) ∧
      (chans_add env s chptr).1.bloom_members = s.bloom_members + chptr.members.length ∧
      (chans_add env s chptr).2 = 1) ∧
    (env.irccasecanon (cstr chptr.chname) ∈ keys → chans_add env s chptr = (s, 0)) := by
  refine ⟨fun hnew => ?_, fun hold => chans_add_known env s chptr keys hreg hold⟩
  have h := chans_add_new env s chptr keys hreg hnew
  obtain ⟨f1, f2, _⟩ := foldl_add_str_frame env (member_names chptr)
    { s with chans := some (chan_key env chptr :: keys) }
  refine ⟨h, ?_, ?_, ?_⟩
  · rw [h]; exact f2
  · rw [h]; simpa [member_names] using f1
  · rw [h]

theorem chans_add_seeding_witness :
    (sample_state 2).chans = some [] ∧
    (chans_add sample_env (sample_state 2)
      (sample_channel [bytes "anna", bytes "bert", bytes "carl"])).1.bloom_members = 3 ∧
    (chans_add sample_env (sample_state 2)
      (sample_channel [bytes "anna", bytes "bert", bytes "carl"])).2 = 1 ∧
    chans_add sample_env sample_seeded
      { sample_channel sample_names with chname := bytes "#Chan" } = (sample_seeded, 0) :=
  ⟨by decide,
    ((chans_add_seeding sample_env (sample_state 2)
      (sample_channel [bytes "anna", bytes "bert", bytes "carl"]) [] (by decide)).1
        (by decide)).2.2.1.trans (by decide),
    ((chans_add_seeding sample_env (sample_state 2)
      (sample_channel [bytes "anna", bytes "bert", bytes "carl"]) [] (by decide)).1
        (by decide)).2.2.2,
    (chans_add_seeding sample_env sample_seeded
      { sample_channel sample_names with chname := bytes "#Chan" } [bytes "#CHAN"]
        (by decide)).2 (by decide)⟩

/-- C9. Join dispatch: on a detection-enabled group, with filter 0 allocated,
the store not expired and the registry created, `hook_channel_join` on a
group whose canonical name is in the registry performs the single call
`bloom_add_str(client->name)`, so `bloom_members` grows by 1 and the registry
is unchanged; on a group whose canonical name is not in the registry it
inserts the name and runs `bloom_add_str` on every current member, after
which, in an active store, every current member tests positive. -/
theorem hook_channel_join_dispatch (env : Env) (w : World) (s : State)
    (data : hook_data_channel_approval) (keys : List Str)
    (hen : spamfilter_enabled env data.chptr = true)
    (hact : (s.bloom.getD 0 none).isSome = true) (hexp : expired w s = false)
    (hreg : s.chans = some keys) :
    (env.irccasecanon (cstr data.chptr.chname) ∈ keys →
      hook_channel_join env w s data = bloom_add_str env s data.client.name ∧
      (hook_channel_join env w s data).bloom_members = s.bloom_members + 1 ∧
      (hook_channel_join env w s data).chans = s.chans) ∧
    (env.irccasecanon (cstr data.chptr.chname) ∉ keys →
      hook_channel_join env w s data =
        (data.chptr.members.map (fun m => m.client_p.name)).foldl (bloom_add_str env)
          { s with chans := some (env.irccasecanon (cstr data.chptr.chname) :: keys) } ∧
      (hook_channel_join env w s data).chans =
        some (env.irccasecanon (cstr data.chptr.chname) :: keys) ∧
      (hook_channel_join env w s data).bloom_members =
        s.bloom_members + data.chptr.members.length ∧
      (Active s → ∀ m ∈ data.chptr.members,
        bloom_test_str env (hook_channel_join env w s data) m.client_p.name = 1)) := by
  have hn : (s.bloom.getD 0 none).isNone = false := by
    cases h : s.bloom.getD 0 none with
    | none => rw [h] at hact; cases hact
    | some m => rfl
  have hjoin : hook_channel_join env w s data =
      if chans_has env s data.chptr ≠ 0 then bloom_add_str env s data.client.name
      else (chans_add env s data.chptr).1 := by
    unfold hook_channel_join
    simp only [hen, hn, hexp, not_true_eq_false, if_false, Bool.false_eq_true]
  rw [hjoin, chans_has_eq env s data.chptr keys hreg]
  refine ⟨fun hold => ?_, fun hnew => ?_⟩
  · have hk : chan_key env data.chptr ∈ keys := hold
    obtain ⟨_, _, f3, _, f5, _⟩ := bloom_add_str_frame env s data.client.name
    rw [if_pos hk, if_pos (by decide)]
    exact ⟨rfl, f3, f5⟩
  · have hk : chan_key env data.chptr ∉ keys := hnew
    have h := chans_add_new env s data.chptr keys hreg hk
    obtain ⟨f1, f2, _⟩ := foldl_add_str_frame env (member_names data.chptr)
      { s with chans := some (chan_key env data.chptr :: keys) }
    rw [if_neg hk, if_neg (by decide), h]
    refine ⟨rfl, f2, by simpa [member_names] using f1, fun hA m hm => ?_⟩
    exact foldl_add_str_tests env (member_names data.chptr)
      { s with chans := some (chan_key env data.chptr :: keys) } hA m.client_p.name
      (List.mem_map.mpr ⟨m, hm, rfl⟩)

theorem hook_channel_join_dispatch_witness :
    (hook_channel_join sample_env (sample_world []) sample_seeded
      { client := { name := bytes "gina" }, chptr := sample_channel sample_names }).bloom_members =
      sample_seeded.bloom_members + 1 ∧
    (hook_channel_join sample_env (sample_world []) sample_seeded
      { client := { name := bytes "gina" }, chptr := sample_channel sample_names }).chans =
      sample_seeded.chans :=
  ((hook_channel_join_dispatch sample_env (sample_world []) sample_seeded
    { client := { name := bytes "gina" }, chptr := sample_channel sample_names }
    [bytes "#CHAN"] (by decide) (by decide) (by decide) (by decide)).1 (by decide)).2

theorem true_hit_eq_member (env : Env) (w : World) (s : State) (chptr : Channel)
    (toks : List Str)
    (hseed : ∀ m ∈ chptr.members, bloom_test_str env s m.client_p.name = 1)
    (hreal : ∀ t ∈ toks, real_test_token w t chptr ≠ 0 ↔ t ∈ member_names chptr) :
    toks.filter (true_hit env w s chptr) =
      toks.filter (fun t => decide (t ∈ member_names chptr)) := by
  apply List.filter_congr
  intro t ht
  unfold true_hit prob_test_token
  by_cases hm : t ∈ member_names chptr
  · obtain ⟨m, hm1, hm2⟩ := List.mem_map.mp hm
    have h1 := hseed m hm1
    rw [hm2] at h1
    have h2 := (hreal t ht).mpr hm
    simp [h1, h2, hm]
  · have h2 : real_test_token w t chptr = 0 := by
      by_contra hne
      exact hm ((hreal t ht).mp hne)
    simp [h2, hm]

/-- C8, as stated, fails: with `conf_limit = 5` and the six members of the
registered sample channel seeded, the message "anna bert carl dora emil"
names five of them, each accepted by both tests, and is returned unchanged:
only three of its tokens end at a delimiter the scanner reaches. The same
five names after a word that ends in the two-byte sequence C3 A9, and with
more text behind them, are counted as four, since the scanner then starts the
run after the next delimiter one byte late and tests `nna`. -/
theorem suppression_threshold_counterexample :
    sample_seeded.conf_limit = 5 ∧ Active sample_seeded ∧
    chans_has sample_env sample_seeded (sample_channel sample_names) = 1 ∧
    sample_seeded.bloom_members = 6 ∧
    (∀ n ∈ [bytes "anna", bytes "bert", bytes "carl", bytes "dora", bytes "emil"],
      n ∈ sample_names ∧ bloom_test_str sample_env sample_seeded n = 1 ∧
        real_test_token (sample_world sample_names) n (sample_channel sample_names) = 1) ∧
    count_nicks sample_env (sample_world sample_names) sample_seeded
      (bytes "anna bert carl dora emil") (sample_channel sample_names) = 3 ∧
    (hook_spamfilter_query sample_env (sample_world sample_names) sample_seeded
      (sample_hook sample_names (bytes "anna bert carl dora emil"))).1 =
      sample_hook sample_names (bytes "anna bert carl dora emil") ∧
    (count_nicks_scan sample_env (sample_world sample_names) sample_seeded
      sample_accent_text (sample_channel sample_names)).tested =
      [[99, 97, 102, 0xC3, 0xA9], bytes "bert", bytes "carl", bytes "dora", bytes "emil"] ∧
    count_nicks sample_env (sample_world sample_names) sample_seeded
      sample_accent_text (sample_channel sample_names) = 4 ∧
    (hook_spamfilter_query sample_env (sample_world sample_names) sample_seeded
      (sample_hook sample_names sample_accent_text)).1 =
      sample_hook sample_names sample_accent_text := by
  decide

/-- C8, amended. With `conf_limit = 5`, filter 0 allocated and every current
member of the group testing positive (as after seeding), take a message of
NUL-free ASCII bytes that is not yet suppressed. The tokens `count_nicks`
tests are the runs of non-delimiter bytes that a delimiter terminates within
the scanned part of the text (the bytes at indices `i` with `i + 6 < len`) and
whose length lies in the window. If exactly 5 of these runs, counted with
repetition, are names of current members, the message is suppressed with the
reason "nicks: counted at least 5 names"; if exactly 4 are, it is returned
unchanged. The exact lookup is assumed to accept such a run exactly when it
is the name of a current member. -/
theorem suppression_threshold (env : Env) (w : World) (s : State)
    (hook : hook_data_privmsg_channel) (hlimit : s.conf_limit = 5)
    (hact : (s.bloom.getD 0 none).isSome = true) (happ : hook.approved = 0)
    (hascii : ∀ b ∈ hook.text, 0 < b ∧ b < 128)
    (hseed : ∀ m ∈ hook.chptr.members, bloom_test_str env s m.client_p.name = 1)
    (hreal : ∀ t ∈ (terminated_runs ascii_delim
          (hook.text.take (hook.text.length - 6)) []).filter
        (fun t => decide (s.conf_nicklen_min ≤ t.length) && decide (t.length ≤ env.NICKLEN)),
      real_test_token w t hook.chptr ≠ 0 ↔ t ∈ hook.chptr.members.map (fun m => m.client_p.name)) :
    (count_nicks_scan env w s hook.text hook.chptr).tested =
      (terminated_runs ascii_delim (hook.text.take (hook.text.length - 6)) []).filter
        (fun t => decide (s.conf_nicklen_min ≤ t.length) && decide (t.length ≤ env.NICKLEN)) ∧
    ((((terminated_runs ascii_delim (hook.text.take (hook.text.length - 6)) []).filter
        (fun t => decide (s.conf_nicklen_min ≤ t.length) && decide (t.length ≤ env.NICKLEN))).filter
        (fun t => decide (t ∈ hook.chptr.members.map (fun m => m.client_p.name)))).length = 5 →
      (hook_spamfilter_query env w s hook).1 =
        { hook with reason := some "nicks: counted at least 5 names", approved := -1 }) ∧
    ((((terminated_runs ascii_delim (hook.text.take (hook.text.length - 6)) []).filter
        (fun t => decide (s.conf_nicklen_min ≤ t.length) && decide (t.length ≤ env.NICKLEN))).filter
        (fun t => decide (t ∈ hook.chptr.members.map (fun m => m.client_p.name)))).length = 4 →
      (hook_spamfilter_query env w s hook).1 = hook) := by
  have ht : (count_nicks_scan env w s hook.text hook.chptr).tested =
      (terminated_runs ascii_delim (hook.text.take (hook.text.length - 6)) []).filter
        (fun t => decide (s.conf_nicklen_min ≤ t.length) && decide (t.length ≤ env.NICKLEN)) :=
    tested_ascii env w s hook.text hook.chptr hascii
  have hreal' : ∀ t ∈ (count_nicks_scan env w s hook.text hook.chptr).tested,
      real_test_token w t hook.chptr ≠ 0 ↔ t ∈ member_names hook.chptr := by
    rw [ht]; exact hreal
  have hcount : count_nicks env w s hook.text hook.chptr =
      (((terminated_runs ascii_delim (hook.text.take (hook.text.length - 6)) []).filter
        (fun t => decide (s.conf_nicklen_min ≤ t.length) && decide (t.length ≤ env.NICKLEN))).filter
        (fun t => decide (t ∈ hook.chptr.members.map (fun m => m.client_p.name)))).length := by
    have h := true_hit_eq_member env w s hook.chptr _ hseed hreal'
    unfold member_names at h
    rw [← ht, ← h]
    exact (count_nicks_scan_spec env w s hook.text hook.chptr).2.2.1
  rw [hook_spamfilter_query_eq env w s hook happ hact, hcount, hlimit]
  refine ⟨ht, fun h5 => ?_, fun h4 => ?_⟩
  · rw [h5]; rfl
  · rw [h4]; rfl

theorem suppression_threshold_witness :
    (∀ b ∈ bytes "anna bert carl dora emil, please stop", 0 < b ∧ b < 128) ∧
    (count_nicks_scan sample_env (sample_world sample_names) sample_seeded
      (bytes "anna bert carl dora emil, please stop") (sample_channel sample_names)).tested =
      [bytes "anna", bytes "bert", bytes "carl", bytes "dora", bytes "emil"] ∧
    (hook_spamfilter_query sample_env (sample_world sample_names) sample_seeded
      (sample_hook sample_names (bytes "anna bert carl dora emil, please stop"))).1 =
      { sample_hook sample_names (bytes "anna bert carl dora emil, please stop") with
        reason := some "nicks: counted at least 5 names", approved := -1 } ∧
    (hook_spamfilter_query sample_env (sample_world sample_names) sample_seeded
      (sample_hook sample_names (bytes "anna bert carl dora, please stop"))).1 =
      sample_hook sample_names (bytes "anna bert carl dora, please stop") :=
  ⟨by decide,
    (suppression_threshold sample_env (sample_world sample_names) sample_seeded
      (sample_hook sample_names (bytes "anna bert carl dora emil, please stop"))
      (by decide) (by decide) (by decide) (by decide) (by decide) (by decide)).1.trans (by decide),
    (suppression_threshold sample_env (sample_world sample_names) sample_seeded
      (sample_hook sample_names (bytes "anna bert carl dora emil, please stop"))
      (by decide) (by decide) (by decide) (by decide) (by decide) (by decide)).2.1 (by decide),
    (suppression_threshold sample_env (sample_world sample_names) sample_seeded
      (sample_hook sample_names (bytes "anna bert carl dora, please stop"))
      (by decide) (by decide) (by decide) (by decide) (by decide) (by decide)).2.2 (by decide)⟩

/-! ## Store life cycle -/

theorem memset_zero_full (mem : List Nat) (n : Nat) (h : mem.length = n) :
    memset (some mem) 0 n = some (List.replicate n 0) := by
  simp [memset, h]

theorem memset_idem (p : Option (List Nat)) (c n : Nat) :
    memset (memset p c n) c n = memset p c n := by
  cases p with
  | none => rfl
  | some mem =>
    simp only [memset, Option.map_some', Option.some.injEq, List.length_append,
      List.length_replicate, List.length_drop]
    by_cases h : n ≤ mem.length
    · rw [Nat.min_eq_left h, Nat.min_eq_left (by omega)]
      congr 1
      rw [List.drop_append_of_le_length (by simp), List.drop_eq_nil_of_le (by simp),
        List.nil_append]
    · have h1 : mem.length ≤ n := by omega
      rw [Nat.min_eq_right h1, List.drop_eq_nil_of_le h1]
      have h2 : mem.length - n = 0 := by omega
      simp [h2, h1]

theorem list_ext_getD {α : Type} (l1 l2 : List (Option α)) (hlen : l1.length = l2.length)
    (h : ∀ i, l1.getD i none = l2.getD i none) : l1 = l2 := by
  apply List.ext_getElem hlen
  intro i h1 h2
  have := h i
  simpa [List.getD_eq_getElem?_getD, List.getElem?_eq_getElem h1,
    List.getElem?_eq_getElem h2] using this

theorem bloom_flush_eq (w : World) (s : State) :
    bloom_flush w s =
      { s with
        bloom := (s.bloom.set 0 (memset (s.bloom.getD 0 none) 0 s.bloom_size)).set 1
          (memset ((s.bloom.set 0 (memset (s.bloom.getD 0 none) 0 s.bloom_size)).getD 1 none) 0
            s.bloom_size)
        bloom_flushed := w.rb_current_time
        bloom_members := 0 } := by
  simp [bloom_flush, NUM_HASHES, List.range_succ]

theorem bloom_flush_getD (w : World) (s : State) (i : Nat) :
    (bloom_flush w s).bloom.getD i none =
      if i < NUM_HASHES then memset (s.bloom.getD i none) 0 s.bloom_size
      else s.bloom.getD i none := by
  rw [bloom_flush_eq]
  simp only [getD_set_eq, List.length_set, NUM_HASHES]
  rcases i with _ | _ | i
  · by_cases h : 0 < s.bloom.length
    · simp [h]
    · have h0 : s.bloom[0]? = none := List.getElem?_eq_none (Nat.le_of_not_lt h)
      simp [h, h0, memset]
  · by_cases h : 1 < s.bloom.length
    · simp [h]
    · have h0 : s.bloom[1]? = none := List.getElem?_eq_none (Nat.le_of_not_lt h)
      simp [h, h0, memset]
  · have h2 : ¬ (i + 1 + 1 < 2) := by omega
    simp [h2]

theorem bloom_flush_frame (w : World) (s : State) :
    (bloom_flush w s).bloom.length = s.bloom.length ∧
    (bloom_flush w s).bloom_salt = s.bloom_salt ∧
    (bloom_flush w s).bloom_size = s.bloom_size ∧
    (bloom_flush w s).bloom_members = 0 ∧
    (bloom_flush w s).bloom_flushed = w.rb_current_time ∧
    (bloom_flush w s).chans = s.chans ∧
    (bloom_flush w s).conf_limit = s.conf_limit ∧
    (bloom_flush w s).conf_nicklen_min = s.conf_nicklen_min ∧
    (bloom_flush w s).conf_bloom_size = s.conf_bloom_size ∧
    (bloom_flush w s).conf_bloom_bits = s.conf_bloom_bits ∧
    (bloom_flush w s).conf_bloom_refresh = s.conf_bloom_refresh := by
  rw [bloom_flush_eq]
  simp

theorem bloom_destroy_eq (s : State) :
    bloom_destroy s =
      { s with bloom := (s.bloom.set 0 none).set 1 none, bloom_members := 0, bloom_size := 0 } := by
  simp [bloom_destroy, NUM_HASHES, List.range_succ]

theorem bloom_destroy_getD (s : State) (i : Nat) :
    (bloom_destroy s).bloom.getD i none = if i < NUM_HASHES then none else s.bloom.getD i none := by
  rw [bloom_destroy_eq]
  simp only [getD_set_eq, List.length_set, NUM_HASHES]
  rcases i with _ | _ | i
  · by_cases h : 0 < s.bloom.length
    · simp [h]
    · have h0 : s.bloom[0]? = none := List.getElem?_eq_none (Nat.le_of_not_lt h)
      simp [h, h0]
  · by_cases h : 1 < s.bloom.length
    · simp [h]
    · have h0 : s.bloom[1]? = none := List.getElem?_eq_none (Nat.le_of_not_lt h)
      simp [h, h0]
  · have h2 : ¬ (i + 1 + 1 < 2) := by omega
    simp [h2]

theorem bloom_create_eq (w : World) (s : State) (size : Nat) (h : size ≠ 0) :
    bloom_create w s size =
      bloom_flush w
        { s with bloom := (s.bloom.set 0 (rb_malloc size)).set 1 (rb_malloc size),
                 bloom_size := size } := by
  simp [bloom_create, h, NUM_HASHES, List.range_succ]

theorem bloom_create_getD (w : World) (s : State) (size : Nat) (h : size ≠ 0) (i : Nat) :
    (bloom_create w s size).bloom.getD i none =
      if i < NUM_HASHES then
        (if i < s.bloom.length then some (List.replicate size 0) else none)
      else s.bloom.getD i none := by
  rw [bloom_create_eq w s size h, bloom_flush_getD]
  simp only [getD_set_eq, List.length_set, NUM_HASHES, rb_malloc]
  rcases i with _ | _ | i
  · by_cases h0 : 0 < s.bloom.length
    · simp [h0, memset]
    · have h3 : s.bloom[0]? = none := List.getElem?_eq_none (Nat.le_of_not_lt h0)
      simp [h0, h3, memset]
  · by_cases h1 : 1 < s.bloom.length
    · simp [h1, memset]
    · have h3 : s.bloom[1]? = none := List.getElem?_eq_none (Nat.le_of_not_lt h1)
      simp [h1, h3, memset]
  · have h2 : ¬ (i + 1 + 1 < 2) := by omega
    simp [h2]

theorem state_ext (s t : State) (h1 : s.conf_limit = t.conf_limit)
    (h2 : s.conf_nicklen_min = t.conf_nicklen_min) (h3 : s.conf_bloom_size = t.conf_bloom_size)
    (h4 : s.conf_bloom_bits = t.conf_bloom_bits) (h5 : s.conf_bloom_refresh = t.conf_bloom_refresh)
    (h6 : s.bloom = t.bloom) (h7 : s.bloom_salt = t.bloom_salt) (h8 : s.bloom_size = t.bloom_size)
    (h9 : s.bloom_members = t.bloom_members) (h10 : s.bloom_flushed = t.bloom_flushed)
    (h11 : s.chans = t.chans) : s = t := by
  cases s; cases t; simp_all

theorem bloom_flush_twice (w : World) (s : State) :
    bloom_flush w (bloom_flush w s) = bloom_flush w s := by
  obtain ⟨a1, a2, a3, a4, a5, a6, a7, a8, a9, a10, a11⟩ := bloom_flush_frame w s
  obtain ⟨b1, b2, b3, b4, b5, b6, b7, b8, b9, b10, b11⟩ := bloom_flush_frame w (bloom_flush w s)
  apply state_ext
  · rw [b7]
  · rw [b8]
  · rw [b9]
  · rw [b10]
  · rw [b11]
  · apply list_ext_getD _ _ b1
    intro i
    rw [bloom_flush_getD w (bloom_flush w s), bloom_flush_getD w s, a3]
    by_cases hi : i < NUM_HASHES
    · simp only [hi, if_true, memset_idem]
    · simp only [hi, if_false]
  · rw [b2]
  · rw [b3]
  · rw [b4, a4]
  · rw [b5, a5]
  · rw [b6]

theorem filter_bit_of_zeros (s : State) (i idx n : Nat)
    (h : s.bloom.getD i none = some (List.replicate n 0) ∨ s.bloom.getD i none = none) :
    filter_bit s i idx = false := by
  unfold filter_bit
  rcases h with h | h
  · rw [h]
    have : (List.replicate n 0).getD (idx / 8) 0 = 0 := by
      rw [List.getD_eq_getElem?_getD]
      by_cases hl : idx / 8 < n
      · simp [List.getElem?_replicate, hl]
      · simp [List.getElem?_replicate, hl]
    simp [this]
  · rw [h]

theorem bloom_test_str_of_unset (env : Env) (s : State) (str : Str)
    (h : ∀ idx, filter_bit s 0 idx = false) : bloom_test_str env s str = 0 := by
  rw [bloom_test_str_eq, h]
  simp

theorem bloom_flush_active (w : World) (s : State) (h : Active s) :
    Active (bloom_flush w s) ∧
      ∀ i, i < NUM_HASHES →
        (bloom_flush w s).bloom.getD i none = some (List.replicate s.bloom_size 0) := by
  obtain ⟨_, _, a3, _⟩ := bloom_flush_frame w s
  have hz : ∀ i, i < NUM_HASHES →
      (bloom_flush w s).bloom.getD i none = some (List.replicate s.bloom_size 0) := by
    intro i hi
    obtain ⟨mem, hm, hl⟩ := active_filter s h i hi
    rw [bloom_flush_getD, if_pos hi, hm, memset_zero_full mem _ hl]
  refine ⟨⟨by rw [a3]; exact h.1, by rw [a3]; exact h.2.1, fun i hi => ?_⟩, hz⟩
  rw [hz i hi, a3]
  simp

/-- C15. Idempotent flush: on an active store `bloom_flush` leaves every
filter all zero bytes, so no bit is set, leaves `bloom_members == 0`, stamps
`bloom_flushed` with the clock and keeps `bloom_size`; flushing twice at the
same clock reading gives the same state as flushing once. -/
theorem bloom_flush_idempotent (w : World) (s : State) (h : Active s) :
    (∀ i, i < NUM_HASHES →
      (bloom_flush w s).bloom.getD i none = some (List.replicate s.bloom_size 0)) ∧
    (∀ i idx, i < NUM_HASHES → filter_bit (bloom_flush w s) i idx = false) ∧
    (bloom_flush w s).bloom_members = 0 ∧
    (bloom_flush w s).bloom_size = s.bloom_size ∧
    (bloom_flush w s).bloom_flushed = w.rb_current_time ∧
    bloom_flush w (bloom_flush w s) = bloom_flush w s := by
  obtain ⟨_, _, a3, a4, a5, _⟩ := bloom_flush_frame w s
  obtain ⟨_, hz⟩ := bloom_flush_active w s h
  exact ⟨hz, fun i idx hi => filter_bit_of_zeros _ i idx _ (Or.inl (hz i hi)), a4, a3, a5,
    bloom_flush_twice w s⟩

theorem bloom_flush_idempotent_witness :
    Active sample_seeded ∧ sample_seeded.bloom_members = 6 ∧
    (bloom_flush (sample_world []) sample_seeded).bloom_members = 0 ∧
    bloom_flush (sample_world []) (bloom_flush (sample_world []) sample_seeded) =
      bloom_flush (sample_world []) sample_seeded :=
  ⟨by decide, by decide,
    (bloom_flush_idempotent (sample_world []) sample_seeded (by decide)).2.2.1,
    (bloom_flush_idempotent (sample_world []) sample_seeded (by decide)).2.2.2.2.2⟩

theorem reset_of_null (w : World) (s : State) (h : s.bloom.getD 0 none = none) :
    reset w s = { s with chans := irc_radixtree_create } := by
  unfold reset
  rw [h]
  rfl

theorem reset_of_alloc (w : World) (s : State) (h : (s.bloom.getD 0 none).isSome = true) :
    reset w s = { bloom_flush w s with chans := irc_radixtree_create } := by
  unfold reset
  rw [h]
  rfl

theorem resize_eq (w : World) (s : State) (size : Nat) :
    resize w s size =
      bloom_create w { bloom_destroy s with chans := irc_radixtree_create } size := by
  unfold resize
  rw [reset_of_null w (bloom_destroy s) (by rw [bloom_destroy_getD]; rfl)]

theorem resize_zero (w : World) (s : State) :
    resize w s 0 = { bloom_destroy s with chans := irc_radixtree_create } := by
  rw [resize_eq]
  rfl

theorem resize_frame (w : World) (s : State) (size : Nat) (h : size ≠ 0) :
    (resize w s size).bloom_size = size ∧
    (resize w s size).bloom_members = 0 ∧
    (resize w s size).bloom_flushed = w.rb_current_time ∧
    (resize w s size).chans = some [] ∧
    (resize w s size).bloom_salt = s.bloom_salt ∧
    (resize w s size).bloom.length = s.bloom.length ∧
    (resize w s size).conf_limit = s.conf_limit ∧
    (resize w s size).conf_nicklen_min = s.conf_nicklen_min ∧
    (resize w s size).conf_bloom_size = s.conf_bloom_size ∧
    (resize w s size).conf_bloom_bits = s.conf_bloom_bits ∧
    (resize w s size).conf_bloom_refresh = s.conf_bloom_refresh := by
  rw [resize_eq, bloom_create_eq _ _ _ h, bloom_flush_eq, bloom_destroy_eq]
  simp [irc_radixtree_create]

theorem resize_getD (w : World) (s : State) (size : Nat) (h : size ≠ 0) (i : Nat) :
    (resize w s size).bloom.getD i none =
      if i < NUM_HASHES then
        (if i < s.bloom.length then some (List.replicate size 0) else none)
      else s.bloom.getD i none := by
  rw [resize_eq, bloom_create_getD _ _ _ h]
  have hl : (bloom_destroy s).bloom.length = s.bloom.length := by
    rw [bloom_destroy_eq]; simp
  have hg := bloom_destroy_getD s i
  by_cases hi : i < NUM_HASHES
  · simp only [hi, if_true]
    rw [show ({ bloom_destroy s with chans := irc_radixtree_create } : State).bloom.length =
      s.bloom.length from hl]
  · simp only [hi, if_false] at hg ⊢
    exact hg

/-- C14. Resize invalidates state: after `resize(n)` with `n > 0`,
`bloom_test_str` answers 0 for every token, `bloom_members` is 0,
`bloom_size` is `n`, and the registry is empty, so `chans_has` answers 0 for
every group. -/
theorem resize_invalidates (env : Env) (w : World) (s : State) (n : Nat) (hn : 0 < n) :
    (∀ token, bloom_test_str env (resize w s n) token = 0) ∧
    (resize w s n).bloom_members = 0 ∧
    (resize w s n).bloom_size = n ∧
    (resize w s n).chans = some [] ∧
    (∀ chptr, chans_has env (resize w s n) chptr = 0) := by
  have hn' : n ≠ 0 := by omega
  obtain ⟨a1, a2, _, a4, _⟩ := resize_frame w s n hn'
  refine ⟨fun token => ?_, a2, a1, a4, fun chptr => ?_⟩
  · apply bloom_test_str_of_unset
    intro idx
    apply filter_bit_of_zeros _ 0 idx n
    rw [resize_getD w s n hn']
    by_cases hl : 0 < s.bloom.length
    · left; simp [NUM_HASHES, hl]
    · right; simp [NUM_HASHES, hl]
  · rw [chans_has_eq env _ chptr [] a4]
    simp

theorem resize_invalidates_witness :
    bloom_test_str sample_env sample_seeded (bytes "anna") = 1 ∧
    chans_has sample_env sample_seeded (sample_channel sample_names) = 1 ∧
    bloom_test_str sample_env (resize (sample_world []) sample_seeded 16) (bytes "anna") = 0 ∧
    chans_has sample_env (resize (sample_world []) sample_seeded 16)
      (sample_channel sample_names) = 0 :=
  ⟨by decide, by decide,
    (resize_invalidates sample_env (sample_world []) sample_seeded 16 (by decide)).1 _,
    (resize_invalidates sample_env (sample_world []) sample_seeded 16 (by decide)).2.2.2.2 _⟩

/-- C16. Disabled state: `bloom_create(0)` changes nothing; after `resize(0)`
no filter is allocated and `bloom_size` is 0; and in every state whose
filter 0 is NULL, as after `resize(0)`, `hook_spamfilter_query` returns the
hook data unchanged without testing a token, whatever the text and the limit,
and `hook_channel_join` changes no global, whatever the group and member. -/
theorem disabled_state (env : Env) (w : World) (s : State) :
    bloom_create w s 0 = s ∧
    (∀ i, i < NUM_HASHES → (resize w s 0).bloom.getD i none = none) ∧
    (resize w s 0).bloom_size = 0 ∧
    (∀ (w1 : World) (t : State), t.bloom.getD 0 none = none →
      (∀ hook, hook_spamfilter_query env w1 t hook = (hook, Scan.empty)) ∧
      (∀ data, hook_channel_join env w1 t data = t)) ∧
    (∀ (w1 : World) (limit : Nat) hook,
      hook_spamfilter_query env w1 { resize w s 0 with conf_limit := limit } hook =
        (hook, Scan.empty)) ∧
    (∀ (w1 : World) data, hook_channel_join env w1 (resize w s 0) data = resize w s 0) := by
  have hnull : ∀ i, i < NUM_HASHES → (resize w s 0).bloom.getD i none = none := by
    intro i hi
    rw [resize_zero]
    have := bloom_destroy_getD s i
    rw [if_pos hi] at this
    exact this
  have hq : ∀ (w1 : World) (t : State), t.bloom.getD 0 none = none →
      ∀ hook, hook_spamfilter_query env w1 t hook = (hook, Scan.empty) := by
    intro w1 t ht hook
    unfold hook_spamfilter_query
    rw [ht]
    by_cases ha : hook.approved ≠ 0
    · rw [if_pos ha]
    · rw [if_neg ha]; rfl
  have hj : ∀ (w1 : World) (t : State), t.bloom.getD 0 none = none →
      ∀ data, hook_channel_join env w1 t data = t := by
    intro w1 t ht data
    unfold hook_channel_join
    rw [ht]
    by_cases he : ¬ spamfilter_enabled env data.chptr = true
    · rw [if_pos he]
    · rw [if_neg he]; rfl
  refine ⟨rfl, hnull, ?_, fun w1 t ht => ⟨hq w1 t ht, hj w1 t ht⟩, fun w1 limit hook => ?_,
    fun w1 data => hj w1 _ (hnull 0 (by decide)) data⟩
  · rw [resize_zero, bloom_destroy_eq]
  · exact hq w1 { resize w s 0 with conf_limit := limit } (hnull 0 (by decide)) hook

theorem disabled_state_witness :
    (hook_spamfilter_query sample_env (sample_world sample_names)
      (resize (sample_world []) sample_seeded 0)
      (sample_hook sample_names (bytes "anna bert carl dora emil fred, please stop"))).1 =
      sample_hook sample_names (bytes "anna bert carl dora emil fred, please stop") ∧
    hook_channel_join sample_env (sample_world [])
      (resize (sample_world []) sample_seeded 0)
      { client := { name := bytes "gina" }, chptr := sample_channel sample_names } =
      resize (sample_world []) sample_seeded 0 :=
  ⟨congrArg Prod.fst
      (((disabled_state sample_env (sample_world []) sample_seeded).2.2.2.1
        (sample_world sample_names) (resize (sample_world []) sample_seeded 0) (by decide)).1 _),
    (disabled_state sample_env (sample_world []) sample_seeded).2.2.2.2.2 _ _⟩

/-- C18. Already-suppressed messages: when `approved` is non-zero on entry,
`hook_spamfilter_query` returns the hook data unchanged, tests no token and
sends no false-positive notice, whatever the text and the store. -/
theorem hook_spamfilter_query_suppressed (env : Env) (w : World) (s : State)
    (hook : hook_data_privmsg_channel) (h : hook.approved ≠ 0) :
    hook_spamfilter_query env w s hook = (hook, Scan.empty) ∧
    (hook_spamfilter_query env w s hook).2.tested = [] ∧
    (hook_spamfilter_query env w s hook).2.reports = [] := by
  have : hook_spamfilter_query env w s hook = (hook, Scan.empty) := by
    unfold hook_spamfilter_query
    rw [if_pos h]
  rw [this]
  exact ⟨rfl, rfl, rfl⟩

theorem hook_spamfilter_query_suppressed_witness :
    hook_spamfilter_query sample_env (sample_world sample_names) sample_seeded
      { sample_hook sample_names (bytes "anna bert carl dora emil fred, please stop") with
        approved := -1, reason := some "earlier stage" } =
      ({ sample_hook sample_names (bytes "anna bert carl dora emil fred, please stop") with
        approved := -1, reason := some "earlier stage" }, Scan.empty) :=
  (hook_spamfilter_query_suppressed sample_env (sample_world sample_names) sample_seeded
    { sample_hook sample_names (bytes "anna bert carl dora emil fred, please stop") with
      approved := -1, reason := some "earlier stage" } (by decide)).1

theorem reset_active (w : World) (s : State) (h : Active s) :
    Active (reset w s) ∧
    (∀ i, i < NUM_HASHES → (reset w s).bloom.getD i none = some (List.replicate s.bloom_size 0)) ∧
    (reset w s).bloom_members = 0 ∧
    (reset w s).bloom_flushed = w.rb_current_time ∧
    (reset w s).chans = some [] ∧
    (reset w s).bloom_size = s.bloom_size := by
  obtain ⟨m0, hm0, _⟩ := active_filter s h 0 (by decide)
  have hr := reset_of_alloc w s (by rw [hm0]; rfl)
  obtain ⟨hA, hz⟩ := bloom_flush_active w s h
  obtain ⟨_, _, a3, a4, a5, _⟩ := bloom_flush_frame w s
  rw [hr]
  exact ⟨hA, hz, a4, a5, rfl, a3⟩

/-- C12. Expiry on join: the store is expired exactly when
`bloom_flushed + conf_bloom_refresh < rb_current_time()`. On a
detection-enabled group with an active, expired store, `hook_channel_join`
first performs `reset` (every filter all zero, `bloom_members = 0`,
`bloom_flushed = now`, registry empty) and then registers the joining group
in the reset state: afterwards the registry holds exactly that group and
`bloom_members` is the number of its current members. -/
theorem hook_channel_join_expired (env : Env) (w : World) (s : State)
    (data : hook_data_channel_approval) (hen : spamfilter_enabled env data.chptr = true)
    (hact : Active s) :
    (expired w s = true ↔ s.bloom_flushed + s.conf_bloom_refresh < w.rb_current_time) ∧
    (expired w s = true →
      (∀ i, i < NUM_HASHES →
        (reset w s).bloom.getD i none = some (List.replicate s.bloom_size 0)) ∧
      (reset w s).bloom_members = 0 ∧
      (reset w s).bloom_flushed = w.rb_current_time ∧
      (reset w s).chans = some [] ∧
      hook_channel_join env w s data =
        (data.chptr.members.map (fun m => m.client_p.name)).foldl (bloom_add_str env)
          { reset w s with chans := some [env.irccasecanon (cstr data.chptr.chname)] } ∧
      (hook_channel_join env w s data).chans =
        some [env.irccasecanon (cstr data.chptr.chname)] ∧
      (hook_channel_join env w s data).bloom_members = data.chptr.members.length ∧
      (hook_channel_join env w s data).bloom_flushed = w.rb_current_time) := by
  refine ⟨by simp [expired], fun hexp => ?_⟩
  obtain ⟨m0, hm0, _⟩ := active_filter s hact 0 (by decide)
  obtain ⟨_, r2, r3, r4, r5, _⟩ := reset_active w s hact
  have hn : (s.bloom.getD 0 none).isNone = false := by rw [hm0]; rfl
  have hnew : chan_key env data.chptr ∉ ([] : List Str) := by simp
  have hjoin : hook_channel_join env w s data = (chans_add env (reset w s) data.chptr).1 := by
    unfold hook_channel_join
    simp only [hen, hn, hexp, not_true_eq_false, if_false, if_true, Bool.false_eq_true]
    rw [chans_has_eq env (reset w s) data.chptr [] r5]
    rw [if_neg hnew, if_neg (by decide)]
  have hadd := chans_add_new env (reset w s) data.chptr [] r5 hnew
  obtain ⟨f1, f2, _, _, f5, _⟩ := foldl_add_str_frame env (member_names data.chptr)
    { reset w s with chans := some [chan_key env data.chptr] }
  rw [hjoin, hadd]
  refine ⟨r2, r3, r4, r5, rfl, f2, ?_, ?_⟩
  · rw [f1]
    show (reset w s).bloom_members + (member_names data.chptr).length = _
    rw [r3]
    simp [member_names]
  · rw [f5]
    exact r4

theorem hook_channel_join_expired_witness :
    expired (sample_world_at [] 90000) sample_seeded = true ∧
    (hook_channel_join sample_env (sample_world_at [] 90000) sample_seeded
      { client := { name := bytes "gina" },
        chptr := { chname := bytes "#other",
                   members := [{ client_p := { name := bytes "gina" } }], mode := 1 } }).chans =
      some [bytes "#OTHER"] ∧
    (hook_channel_join sample_env (sample_world_at [] 90000) sample_seeded
      { client := { name := bytes "gina" },
        chptr := { chname := bytes "#other",
                   members := [{ client_p := { name := bytes "gina" } }], mode := 1 } }).bloom_members =
      1 :=
  ⟨by decide,
    ((hook_channel_join_expired sample_env (sample_world_at [] 90000) sample_seeded
      { client := { name := bytes "gina" },
        chptr := { chname := bytes "#other",
                   members := [{ client_p := { name := bytes "gina" } }], mode := 1 } }
      (by decide) (by decide)).2 (by decide)).2.2.2.2.2.1,
    ((hook_channel_join_expired sample_env (sample_world_at [] 90000) sample_seeded
      { client := { name := bytes "gina" },
        chptr := { chname := bytes "#other",
                   members := [{ client_p := { name := bytes "gina" } }], mode := 1 } }
      (by decide) (by decide)).2 (by decide)).2.2.2.2.2.2.1⟩

theorem count_nicks_scan_empty (env : Env) (w : World) (s : State) (text : Str)
    (chptr : Channel) (h : strlen text = 0) :
    count_nicks_scan env w s text chptr = Scan.empty := by
  unfold count_nicks_scan
  rw [h]
  rfl

/-- C19, as stated, fails: with `conf_limit = 0` an empty message that no
earlier stage suppressed is suppressed, with the reason "nicks: counted at
least 0 names". -/
theorem empty_text_counterexample :
    (hook_spamfilter_query sample_env (sample_world [])
      { sample_state 2 with conf_limit := 0 } (sample_hook [] [])).1 =
      { sample_hook [] [] with reason := some "nicks: counted at least 0 names", approved := -1 } ∧
    (sample_hook [] []).approved = 0 ∧ (sample_hook [] []).reason = none := by
  decide

/-- C19, amended. For every store state and every configuration with
`conf_limit > 0`, an empty message text yields no tested token, `count_nicks`
returns 0, and `hook_spamfilter_query` returns the hook data unchanged. -/
theorem empty_text_allowed (env : Env) (w : World) (s : State)
    (hook : hook_data_privmsg_channel) (hlimit : 0 < s.conf_limit)
    (hempty : strlen hook.text = 0) :
    (count_nicks_scan env w s hook.text hook.chptr).tested = [] ∧
    count_nicks env w s hook.text hook.chptr = 0 ∧
    (hook_spamfilter_query env w s hook).1 = hook := by
  have hs := count_nicks_scan_empty env w s hook.text hook.chptr hempty
  have hc : count_nicks env w s hook.text hook.chptr = 0 := by
    unfold count_nicks; rw [hs]; rfl
  refine ⟨by rw [hs]; rfl, hc, ?_⟩
  unfold hook_spamfilter_query
  by_cases ha : hook.approved ≠ 0
  · rw [if_pos ha]
  · rw [if_neg ha]
    by_cases hb : (s.bloom.getD 0 none).isNone = true
    · rw [if_pos hb]
    · rw [if_neg hb]
      simp only [hs]
      rw [if_pos (show Scan.empty.ret < s.conf_limit from hlimit)]

theorem empty_text_allowed_witness :
    0 < sample_seeded.conf_limit ∧
    (hook_spamfilter_query sample_env (sample_world sample_names) sample_seeded
      (sample_hook sample_names [])).1 = sample_hook sample_names [] :=
  ⟨by decide,
    (empty_text_allowed sample_env (sample_world sample_names) sample_seeded
      (sample_hook sample_names []) (by decide) (by decide)).2.2⟩

theorem char_to_u64_ascii (env : Env) (b : Nat) (h : b ≤ 127) : char_to_u64 env b = b := by
  unfold char_to_u64
  have h1 : b % 256 = b := Nat.mod_eq_of_lt (by omega)
  have h2 : decide (128 ≤ b % 256) = false := by
    rw [decide_eq_false_iff_not]; omega
  rw [h2, Bool.and_false, h1]
  rfl

theorem foldl_congr_mem {α β : Type} (f g : β → α → β) (l : List α) (b : β)
    (h : ∀ x a, a ∈ l → f x a = g x a) : l.foldl f b = l.foldl g b := by
  induction l generalizing b with
  | nil => rfl
  | cons a as ih =>
    simp only [List.foldl_cons]
    rw [h b a (List.mem_cons_self _ _)]
    exact ih _ (fun x c hc => h x c (List.mem_cons_of_mem _ hc))

/-- C20. Bernstein hash: on a string of bytes in 1..127,
`bloom_hash_bernstein` is the left fold `h := (h * 33 + byte) mod 2^64` over
the bytes, started at 7681; the empty string hashes to 7681; and the second
entry of the hash table gives the same value in every state, so the result
does not depend on salt, size or configuration. -/
theorem bloom_hash_bernstein_fold (env : Env) (str : Str)
    (h : ∀ b ∈ str, 1 ≤ b ∧ b ≤ 127) :
    bloom_hash_bernstein env str = str.foldl (fun h b => (h * 33 + b) % 2 ^ 64) 7681 ∧
    bloom_hash_bernstein env [] = 7681 ∧
    (∀ s t : State, bloom_hashes env s 1 str = bloom_hashes env t 1 str) ∧
    (∀ s : State, bloom_hashes env s 1 str = bloom_hash_bernstein env str) := by
  refine ⟨?_, rfl, fun s t => rfl, fun s => rfl⟩
  unfold bloom_hash_bernstein
  rw [cstr_of_nonzero str (fun b hb => by have := (h b hb).1; omega)]
  apply foldl_congr_mem
  intro x a ha
  rw [char_to_u64_ascii env a (h a ha).2]

theorem bloom_hash_bernstein_fold_witness :
    (∀ b ∈ bytes "ab", 1 ≤ b ∧ b ≤ 127) ∧
    bloom_hash_bernstein sample_env (bytes "ab") = (7681 * 33 + 97) * 33 + 98 :=
  ⟨by decide,
    (bloom_hash_bernstein_fold sample_env (bytes "ab") (by decide)).1.trans (by decide)⟩

theorem real_test_token_clock (w : World) (now : Int) (t : Str) (chptr : Channel) :
    real_test_token { w with rb_current_time := now } t chptr = real_test_token w t chptr :=
  rfl

theorem count_nicks_scan_clock (env : Env) (w : World) (now : Int) (s : State) (text : Str)
    (chptr : Channel) :
    (count_nicks_scan env { w with rb_current_time := now } s text chptr).tested =
      (count_nicks_scan env w s text chptr).tested ∧
    (count_nicks_scan env { w with rb_current_time := now } s text chptr).ret =
      (count_nicks_scan env w s text chptr).ret := by
  obtain ⟨_, a2, a3, _⟩ := count_nicks_scan_spec env w s text chptr
  obtain ⟨_, b2, b3, _⟩ := count_nicks_scan_spec env { w with rb_current_time := now } s text chptr
  have ht : (count_nicks_scan env { w with rb_current_time := now } s text chptr).tested =
      (count_nicks_scan env w s text chptr).tested := by rw [a2, b2]
  refine ⟨ht, ?_⟩
  rw [a3, b3, ht]
  rfl

theorem hook_spamfilter_query_fst (env : Env) (w : World) (s : State)
    (hook : hook_data_privmsg_channel) :
    (hook_spamfilter_query env w s hook).1 =
      if hook.approved ≠ 0 then hook
      else if (s.bloom.getD 0 none).isNone then hook
      else if (count_nicks_scan env w s hook.text hook.chptr).ret < s.conf_limit then hook
      else { hook with
        reason := some (reason_text (count_nicks_scan env w s hook.text hook.chptr).ret),
        approved := -1 } := by
  unfold hook_spamfilter_query
  dsimp only
  split_ifs <;> rfl

theorem hook_spamfilter_query_snd (env : Env) (w : World) (s : State)
    (hook : hook_data_privmsg_channel) :
    (hook_spamfilter_query env w s hook).2 =
      if hook.approved ≠ 0 then Scan.empty
      else if (s.bloom.getD 0 none).isNone then Scan.empty
      else count_nicks_scan env w s hook.text hook.chptr := by
  unfold hook_spamfilter_query
  dsimp only
  split_ifs <;> rfl

/-- C13, as stated, fails: with the clock far past
`bloom_flushed + conf_bloom_refresh`, a message is scanned against the store
as seeded. The name `anna` still tests positive; when it denotes no client the
false-positive notice reports 6 members and 1 tracked channel, and when it
denotes a member it is counted. -/
theorem message_expiry_counterexample :
    expired (sample_world_at [] 1000000) sample_seeded = true ∧
    (hook_spamfilter_query sample_env (sample_world_at [] 1000000) sample_seeded
      (sample_hook sample_names (bytes "anna, and more text"))).2.reports =
      [(8, 6, 1, 999900)] ∧
    (hook_spamfilter_query sample_env (sample_world_at sample_names 1000000) sample_seeded
      (sample_hook sample_names (bytes "anna, and more text"))).2.ret = 1 := by
  decide

/-- C13, amended. A message event performs no expiry check. The hook data
`hook_spamfilter_query` returns, the tokens it tests and the count it reaches
are the same whatever the clock reads, and every false-positive notice it
sends carries the store's current size, member count and registry size, so
the tokens are tested against the store as it stands. -/
theorem hook_spamfilter_query_no_expiry (env : Env) (w : World) (s : State)
    (hook : hook_data_privmsg_channel) (now : Int) :
    (hook_spamfilter_query env { w with rb_current_time := now } s hook).1 =
      (hook_spamfilter_query env w s hook).1 ∧
    (hook_spamfilter_query env { w with rb_current_time := now } s hook).2.tested =
      (hook_spamfilter_query env w s hook).2.tested ∧
    (hook_spamfilter_query env { w with rb_current_time := now } s hook).2.ret =
      (hook_spamfilter_query env w s hook).2.ret ∧
    (∀ r ∈ (hook_spamfilter_query env w s hook).2.reports,
      r = (s.bloom_size, s.bloom_members, irc_radixtree_size s.chans,
        w.rb_current_time - s.bloom_flushed)) := by
  obtain ⟨c1, c2⟩ := count_nicks_scan_clock env w now s hook.text hook.chptr
  have hrep : ∀ r ∈ (count_nicks_scan env w s hook.text hook.chptr).reports,
      r = (s.bloom_size, s.bloom_members, irc_radixtree_size s.chans,
        w.rb_current_time - s.bloom_flushed) := by
    intro r hr
    rw [(count_nicks_scan_spec env w s hook.text hook.chptr).2.2.2] at hr
    obtain ⟨_, _, rfl⟩ := List.mem_map.mp hr
    rfl
  rw [hook_spamfilter_query_fst, hook_spamfilter_query_fst, hook_spamfilter_query_snd,
    hook_spamfilter_query_snd, c2]
  split_ifs
  · exact ⟨rfl, rfl, rfl, fun r hr => by cases hr⟩
  · exact ⟨rfl, rfl, rfl, fun r hr => by cases hr⟩
  · exact ⟨rfl, c1, c2, hrep⟩
  · exact ⟨rfl, c1, c2, hrep⟩

/-- C17, the code at a failing input. In the seeded sample store, setting
`conf_bloom_bits` from 16 to 8 and ending the configuration block resets
nothing: filters, member count and registry are as before, and the seeded
name `anna`, which tested positive, now tests negative. Setting
`conf_bloom_size` to 16 instead does reset store and registry. -/
theorem conf_bloom_bits_no_resize :
    sample_seeded.conf_bloom_bits = 16 ∧
    (conf_spamfilter_nicks_end (sample_world []) (set_conf_bloom_bits sample_seeded 8)).conf_bloom_bits
      = 8 ∧
    (conf_spamfilter_nicks_end (sample_world []) (set_conf_bloom_bits sample_seeded 8)).bloom =
      sample_seeded.bloom ∧
    (conf_spamfilter_nicks_end (sample_world []) (set_conf_bloom_bits sample_seeded 8)).bloom_members
      = 6 ∧
    (conf_spamfilter_nicks_end (sample_world []) (set_conf_bloom_bits sample_seeded 8)).chans =
      some [bytes "#CHAN"] ∧
    bloom_test_str sample_env sample_seeded (bytes "anna") = 1 ∧
    bloom_test_str sample_env
      (conf_spamfilter_nicks_end (sample_world []) (set_conf_bloom_bits sample_seeded 8))
      (bytes "anna") = 0 ∧
    (conf_spamfilter_nicks_end (sample_world []) (set_conf_bloom_size sample_seeded 16)).chans =
      some [] ∧
    (conf_spamfilter_nicks_end (sample_world []) (set_conf_bloom_size sample_seeded 16)).bloom_members
      = 0 := by
  decide

/-- C11, the code at a failing input. After `modinit`, a reconfiguration to
8 bytes and the join of `anna` to the sample channel, the channel is in the
registry and its member `anna` tests positive. A reconfiguration that sets
`conf_bloom_bits` to 8 keeps the channel in the registry, and `anna`, still a
current member, tests negative. -/
theorem registry_invariant_broken :
    chans_has sample_env sample_joined (sample_channel [bytes "anna"]) = 1 ∧
    bloom_test_str sample_env sample_joined (bytes "anna") = 1 ∧
    chans_has sample_env
      (conf_spamfilter_nicks_end (sample_world []) (set_conf_bloom_bits sample_joined 8))
      (sample_channel [bytes "anna"]) = 1 ∧
    { client_p := { name := bytes "anna" } } ∈ (sample_channel [bytes "anna"]).members ∧
    bloom_test_str sample_env
      (conf_spamfilter_nicks_end (sample_world []) (set_conf_bloom_bits sample_joined 8))
      (bytes "anna") = 0 := by
  decide

/-! ## Reachable states -/

theorem join_group_keys (env : Env) (gs : List Channel) (chname : Str) (mode : Nat)
    (client : Client) :
    (join_group env gs chname mode client).1.map (chan_key env) =
      if env.irccasecanon (cstr chname) ∈ gs.map (chan_key env) then gs.map (chan_key env)
      else gs.map (chan_key env) ++ [env.irccasecanon (cstr chname)] := by
  induction gs with
  | nil => simp [join_group, chan_key]
  | cons g gs ih =>
    unfold join_group
    by_cases hk : chan_key env g = env.irccasecanon (cstr chname)
    · rw [if_pos hk]
      simp [hk, add_member, chan_key] at *
      simp [hk]
    · rw [if_neg hk]
      simp only [List.map_cons, ih, List.mem_cons]
      have hk' : ¬ env.irccasecanon (cstr chname) = chan_key env g := fun h => hk h.symm
      by_cases hin : env.irccasecanon (cstr chname) ∈ gs.map (chan_key env)
      · simp [hin]
      · simp [hin, hk']

theorem join_group_joined (env : Env) (gs : List Channel) (chname : Str) (mode : Nat)
    (client : Client) :
    (join_group env gs chname mode client).2 ∈ (join_group env gs chname mode client).1 ∧
    chan_key env (join_group env gs chname mode client).2 = env.irccasecanon (cstr chname) ∧
    ((∃ g ∈ gs, chan_key env g = env.irccasecanon (cstr chname) ∧
        (join_group env gs chname mode client).2 = add_member g client) ∨
      ((∀ g ∈ gs, chan_key env g ≠ env.irccasecanon (cstr chname)) ∧
        (join_group env gs chname mode client).2 =
          { chname := chname, members := [{ client_p := client }], mode := mode })) := by
  induction gs with
  | nil => simp [join_group, chan_key]
  | cons g gs ih =>
    unfold join_group
    by_cases hk : chan_key env g = env.irccasecanon (cstr chname)
    · rw [if_pos hk]
      refine ⟨List.mem_cons_self _ _, hk, Or.inl ⟨g, List.mem_cons_self _ _, hk, rfl⟩⟩
    · rw [if_neg hk]
      obtain ⟨h1, h2, h3⟩ := ih
      refine ⟨List.mem_cons_of_mem _ h1, h2, ?_⟩
      rcases h3 with ⟨g0, hg0, hk0, he0⟩ | ⟨hall, he⟩
      · exact Or.inl ⟨g0, List.mem_cons_of_mem _ hg0, hk0, he0⟩
      · refine Or.inr ⟨fun g1 hg1 => ?_, he⟩
        rcases List.mem_cons.mp hg1 with rfl | hg1
        · exact hk
        · exact hall g1 hg1

theorem join_group_others (env : Env) (gs : List Channel) (chname : Str) (mode : Nat)
    (client : Client) (hnd : (gs.map (chan_key env)).Nodup) :
    ∀ g ∈ (join_group env gs chname mode client).1,
      g = (join_group env gs chname mode client).2 ∨
        (g ∈ gs ∧ chan_key env g ≠ env.irccasecanon (cstr chname)) := by
  induction gs with
  | nil => intro g hg; left; simpa [join_group] using hg
  | cons g0 gs ih =>
    intro g hg
    unfold join_group at hg ⊢
    rw [List.map_cons, List.nodup_cons] at hnd
    by_cases hk : chan_key env g0 = env.irccasecanon (cstr chname)
    · rw [if_pos hk] at hg ⊢
      rcases List.mem_cons.mp hg with rfl | hg
      · exact Or.inl rfl
      · refine Or.inr ⟨List.mem_cons_of_mem _ hg, fun hk2 => hnd.1 ?_⟩
        rw [hk, ← hk2]
        exact List.mem_map_of_mem _ hg
    · rw [if_neg hk] at hg ⊢
      rcases List.mem_cons.mp hg with rfl | hg
      · exact Or.inr ⟨List.mem_cons_self _ _, hk⟩
      · rcases ih hnd.2 g hg with h | ⟨h1, h2⟩
        · exact Or.inl h
        · exact Or.inr ⟨List.mem_cons_of_mem _ h1, h2⟩

theorem bloom_add_length (s : State) (filter hash : Nat) :
    (bloom_add s filter hash).bloom.length = s.bloom.length := by
  rw [bloom_add_eq]
  cases h : s.bloom.getD filter none <;> simp

theorem bloom_add_str_length (env : Env) (s : State) (str : Str) :
    (bloom_add_str env s str).bloom.length = s.bloom.length := by
  rw [bloom_add_str_eq]
  show (bloom_add (bloom_add s 0 _) 1 _).bloom.length = _
  rw [bloom_add_length, bloom_add_length]

theorem foldl_add_str_length (env : Env) (toks : List Str) (s : State) :
    (toks.foldl (bloom_add_str env) s).bloom.length = s.bloom.length := by
  induction toks generalizing s with
  | nil => rfl
  | cons t ts ih => rw [List.foldl_cons, ih, bloom_add_str_length]

theorem hook_channel_join_skip (env : Env) (w : World) (s : State)
    (data : hook_data_channel_approval)
    (h : spamfilter_enabled env data.chptr = false ∨ s.bloom.getD 0 none = none) :
    hook_channel_join env w s data = s := by
  unfold hook_channel_join
  rcases h with h | h
  · rw [h]; rfl
  · by_cases he : ¬ spamfilter_enabled env data.chptr = true
    · rw [if_pos he]
    · rw [if_neg he, h]; rfl

theorem hook_channel_join_eq (env : Env) (w : World) (s : State)
    (data : hook_data_channel_approval) (hen : spamfilter_enabled env data.chptr = true)
    (hsome : (s.bloom.getD 0 none).isSome = true) :
    hook_channel_join env w s data =
      if chans_has env (if expired w s then reset w s else s) data.chptr ≠ 0 then
        bloom_add_str env (if expired w s then reset w s else s) data.client.name
      else (chans_add env (if expired w s then reset w s else s) data.chptr).1 := by
  have hn : (s.bloom.getD 0 none).isNone = false := by
    cases h : s.bloom.getD 0 none with
    | none => rw [h] at hsome; cases hsome
    | some m => rfl
  unfold hook_channel_join
  rw [if_neg (by rw [hen]; simp), hn]
  rfl

/-- What `hook_channel_join` needs of the state it works on after the expiry
check, and what it leaves behind. -/
theorem join_prepared (env : Env) (w : World) (s : State) (keys : List Str)
    (hA : Active s) (hreg : s.chans = some keys) :
    ∃ keys1, Active (if expired w s then reset w s else s) ∧
      (if expired w s then reset w s else s).chans = some keys1 ∧
      (if expired w s then reset w s else s).bloom.length = s.bloom.length ∧
      (if expired w s then reset w s else s).conf_bloom_size = s.conf_bloom_size ∧
      (∀ k ∈ keys1, k ∈ keys) ∧
      (∀ t, keys1 ≠ [] → bloom_test_str env s t = 1 →
        bloom_test_str env (if expired w s then reset w s else s) t = 1) := by
  by_cases hexp : expired w s = true
  · rw [if_pos hexp]
    obtain ⟨r1, _, _, _, r5, _⟩ := reset_active w s hA
    obtain ⟨m0, hm0, _⟩ := active_filter s hA 0 (by decide)
    have hr := reset_of_alloc w s (by rw [hm0]; rfl)
    obtain ⟨a1, _, _, _, _, _, _, _, a9, _⟩ := bloom_flush_frame w s
    refine ⟨[], r1, r5, ?_, ?_, fun k hk => (by cases hk), fun t hne => absurd rfl hne⟩
    · rw [hr]; exact a1
    · rw [hr]; exact a9
  · rw [if_neg hexp]
    exact ⟨keys, hA, hreg, rfl, rfl, fun k hk => hk, fun t _ ht => ht⟩

theorem enabled_add_member (env : Env) (g : Channel) (client : Client) :
    spamfilter_enabled env (add_member g client) = spamfilter_enabled env g :=
  rfl

theorem reginv_join (env : Env) (sys : Sys) (w : World) (chname : Str) (mode : Nat)
    (client : Client) (hinv : RegInv env sys) :
    RegInv env (step env sys (.join w chname mode client)) := by
  unfold RegInv at hinv
  obtain ⟨hlen, hconf, hwf, hnd, hsub, hmem⟩ := hinv
  obtain ⟨hj1, hjk, hj3⟩ := join_group_joined env sys.groups chname mode client
  have hoth := join_group_others env sys.groups chname mode client hnd
  have hkeys := join_group_keys env sys.groups chname mode client
  have hnd' : ((join_group env sys.groups chname mode client).1.map (chan_key env)).Nodup := by
    rw [hkeys]
    by_cases hin : env.irccasecanon (cstr chname) ∈ sys.groups.map (chan_key env)
    · rw [if_pos hin]; exact hnd
    · rw [if_neg hin]
      rw [List.nodup_append]
      refine ⟨hnd, List.nodup_singleton _, ?_⟩
      intro a ha hb
      rw [List.mem_singleton] at hb
      exact hin (hb ▸ ha)
  have hlift : ∀ g ∈ sys.groups,
      ∃ g' ∈ (join_group env sys.groups chname mode client).1,
        chan_key env g' = chan_key env g := by
    intro g hg
    have hin : chan_key env g ∈
        (join_group env sys.groups chname mode client).1.map (chan_key env) := by
      rw [hkeys]
      by_cases hin : env.irccasecanon (cstr chname) ∈ sys.groups.map (chan_key env)
      · rw [if_pos hin]; exact List.mem_map_of_mem _ hg
      · rw [if_neg hin]; exact List.mem_append_left _ (List.mem_map_of_mem _ hg)
    obtain ⟨g', hg', he⟩ := List.mem_map.mp hin
    exact ⟨g', hg', he⟩
  -- when the joined name is registered, the joined group existed and is enabled
  have hold : ∀ keys, sys.st.chans = some keys → env.irccasecanon (cstr chname) ∈ keys →
      spamfilter_enabled env (join_group env sys.groups chname mode client).2 = true ∧
      ∀ m ∈ (join_group env sys.groups chname mode client).2.members,
        m.client_p = client ∨ bloom_test_str env sys.st m.client_p.name = 1 := by
    intro keys hreg hk
    obtain ⟨g0, hg0, hk0⟩ := hsub keys hreg _ hk
    rcases hj3 with ⟨g, hg, hgk, he⟩ | ⟨hall, _⟩
    · obtain ⟨e1, e2⟩ := hmem keys hreg g hg (by rw [hgk]; exact hk)
      rw [he]
      refine ⟨e1, fun m hm => ?_⟩
      rcases List.mem_append.mp hm with hm | hm
      · exact Or.inr (e2 m hm)
      · left
        rw [List.mem_singleton] at hm
        rw [hm]
    · exact absurd hk0 (hall g0 hg0)
  show RegInv env
    { st := hook_channel_join env w sys.st
        { client := client, chptr := (join_group env sys.groups chname mode client).2 }
      groups := (join_group env sys.groups chname mode client).1 }
  unfold RegInv
  by_cases hskip : spamfilter_enabled env (join_group env sys.groups chname mode client).2 = false ∨
      sys.st.bloom.getD 0 none = none
  · rw [hook_channel_join_skip env w sys.st _ hskip]
    refine ⟨hlen, hconf, hwf, hnd', fun keys hreg k hk => ?_, fun keys hreg g hg hgk => ?_⟩
    · obtain ⟨g0, hg0, hk0⟩ := hsub keys hreg k hk
      obtain ⟨g', hg', he⟩ := hlift g0 hg0
      exact ⟨g', hg', he.trans hk0⟩
    · rcases hoth g hg with rfl | ⟨hg0, _⟩
      · exfalso
        rw [hjk] at hgk
        rcases hskip with hdis | hnull
        · rw [(hold keys hreg hgk).1] at hdis
          cases hdis
        · rcases hwf with ⟨hA, _⟩ | ⟨_, hsz⟩
          · obtain ⟨m0, hm0, _⟩ := active_filter _ hA 0 (by decide)
            rw [hnull] at hm0
            cases hm0
          · have hreg' : sys.st.chans = some keys := hreg
            rw [hreg'] at hsz
            have : keys = [] := List.eq_nil_of_length_eq_zero hsz
            rw [this] at hgk
            cases hgk
      · exact hmem keys hreg g hg0 hgk
  · have hen : spamfilter_enabled env (join_group env sys.groups chname mode client).2 = true := by
      cases h : spamfilter_enabled env (join_group env sys.groups chname mode client).2
      · exact absurd (Or.inl h) hskip
      · rfl
    have hnn : sys.st.bloom.getD 0 none ≠ none := fun h => hskip (Or.inr h)
    obtain ⟨hA, keys, hreg⟩ : Active sys.st ∧ ∃ keys, sys.st.chans = some keys := by
      rcases hwf with h | ⟨h, _⟩
      · exact h
      · exact absurd h hnn
    have hsome : (sys.st.bloom.getD 0 none).isSome = true := by
      cases h : sys.st.bloom.getD 0 none with
      | none => exact absurd h hnn
      | some m => rfl
    rw [hook_channel_join_eq env w sys.st _ hen hsome]
    obtain ⟨keys1, p1, p2, p3, p4, p5, p6⟩ := join_prepared env w sys.st keys hA hreg
    generalize (if expired w sys.st = true then reset w sys.st else sys.st) = s1 at *
    rw [chans_has_eq env s1 _ keys1 p2, hjk]
    by_cases hk : env.irccasecanon (cstr chname) ∈ keys1
    · -- the group is registered: one add
      rw [if_pos hk, if_pos (by decide)]
      have hne : keys1 ≠ [] := fun h => by rw [h] at hk; cases hk
      obtain ⟨f1, f2, _, _, f5, _, _, f8, _⟩ :=
        bloom_add_str_frame env s1 client.name
      refine ⟨by rw [bloom_add_str_length, p3]; exact hlen, by rw [f8, p4]; exact hconf,
        Or.inl ⟨bloom_add_str_active env s1 _ p1, keys1, by rw [f5]; exact p2⟩, hnd',
        fun keys2 hreg2 k hk2 => ?_, fun keys2 hreg2 g hg hgk => ?_⟩
      · have hreg2' : (bloom_add_str env s1 client.name).chans = some keys2 := hreg2
        rw [f5, p2] at hreg2'
        have hkk : keys1 = keys2 := Option.some.inj hreg2'
        obtain ⟨g0, hg0, hk0⟩ := hsub keys hreg k (p5 k (hkk ▸ hk2))
        obtain ⟨g', hg', he⟩ := hlift g0 hg0
        exact ⟨g', hg', he.trans hk0⟩
      · have hreg2' : (bloom_add_str env s1 client.name).chans = some keys2 := hreg2
        rw [f5, p2] at hreg2'
        have hkk : keys1 = keys2 := Option.some.inj hreg2'
        show _ ∧ ∀ m ∈ g.members,
          bloom_test_str env (bloom_add_str env s1 client.name) m.client_p.name = 1
        rcases hoth g hg with rfl | ⟨hg0, _⟩
        · obtain ⟨e1, e2⟩ := hold keys hreg (p5 _ hk)
          refine ⟨e1, fun m hm => ?_⟩
          rcases e2 m hm with hc | ht
          · rw [hc]
            exact bloom_test_str_add_self env s1 _ p1
          · exact bloom_test_str_add_other env s1 _ _ (p6 _ hne ht)
        · obtain ⟨e1, e2⟩ := hmem keys hreg g hg0 (p5 _ (hkk ▸ hgk))
          exact ⟨e1, fun m hm => bloom_test_str_add_other env s1 _ _ (p6 _ hne (e2 m hm))⟩
    · -- the group is not registered: it is inserted and seeded
      rw [if_neg hk, if_neg (by decide)]
      have hk' : chan_key env (join_group env sys.groups chname mode client).2 ∉ keys1 := by
        rw [hjk]; exact hk
      rw [chans_add_new env s1 _ keys1 p2 hk', hjk]
      have hA2 : Active { s1 with chans := some (env.irccasecanon (cstr chname) :: keys1) } := p1
      obtain ⟨_, f2, _, _, _, _, _, f8, _⟩ := foldl_add_str_frame env
        (member_names (join_group env sys.groups chname mode client).2)
        { s1 with chans := some (env.irccasecanon (cstr chname) :: keys1) }
      refine ⟨by rw [foldl_add_str_length]; exact p3.trans hlen, by rw [f8]; exact p4 ▸ hconf,
        Or.inl ⟨foldl_add_str_active env _ _ hA2, _, f2⟩, hnd',
        fun keys2 hreg2 k hk2 => ?_, fun keys2 hreg2 g hg hgk => ?_⟩
      · have hreg2' : (List.foldl (bloom_add_str env)
            { s1 with chans := some (env.irccasecanon (cstr chname) :: keys1) }
            (member_names (join_group env sys.groups chname mode client).2)).chans =
            some keys2 := hreg2
        rw [f2] at hreg2'
        have hkk : env.irccasecanon (cstr chname) :: keys1 = keys2 := Option.some.inj hreg2'
        rw [← hkk] at hk2
        rcases List.mem_cons.mp hk2 with rfl | hk2
        · exact ⟨_, hj1, hjk⟩
        · obtain ⟨g0, hg0, hk0⟩ := hsub keys hreg k (p5 k hk2)
          obtain ⟨g', hg', he⟩ := hlift g0 hg0
          exact ⟨g', hg', he.trans hk0⟩
      · have hreg2' : (List.foldl (bloom_add_str env)
            { s1 with chans := some (env.irccasecanon (cstr chname) :: keys1) }
            (member_names (join_group env sys.groups chname mode client).2)).chans =
            some keys2 := hreg2
        rw [f2] at hreg2'
        have hkk : env.irccasecanon (cstr chname) :: keys1 = keys2 := Option.some.inj hreg2'
        show _ ∧ ∀ m ∈ g.members,
          bloom_test_str env (List.foldl (bloom_add_str env)
            { s1 with chans := some (env.irccasecanon (cstr chname) :: keys1) }
            (member_names (join_group env sys.groups chname mode client).2)) m.client_p.name = 1
        rcases hoth g hg with rfl | ⟨hg0, hgne⟩
        · exact ⟨hen, fun m hm => foldl_add_str_tests env _ _ hA2 _
            (List.mem_map.mpr ⟨m, hm, rfl⟩)⟩
        · rw [← hkk] at hgk
          rcases List.mem_cons.mp hgk with hgk | hgk
          · exact absurd hgk hgne
          · have hne : keys1 ≠ [] := fun h => by rw [h] at hgk; cases hgk
            obtain ⟨e1, e2⟩ := hmem keys hreg g hg0 (p5 _ hgk)
            refine ⟨e1, fun m hm => foldl_add_str_keeps env _ _ _ ?_⟩
            exact p6 _ hne (e2 m hm)

theorem int_to_size_t_small (val : Int) (h0 : 0 ≤ val) (h1 : val < 2 ^ 31) :
    int_to_size_t val * 8 < 2 ^ 64 := by
  unfold int_to_size_t
  rw [Int.emod_eq_of_lt h0 (by omega)]
  omega

theorem apply_setting_tame (s : State) (item : Setting) (h : item.tame)
    (hconf : s.conf_bloom_size * 8 < 2 ^ 64) :
    (apply_setting s item).bloom = s.bloom ∧
    (apply_setting s item).bloom_salt = s.bloom_salt ∧
    (apply_setting s item).bloom_size = s.bloom_size ∧
    (apply_setting s item).conf_bloom_bits = s.conf_bloom_bits ∧
    (apply_setting s item).chans = s.chans ∧
    (apply_setting s item).conf_bloom_size * 8 < 2 ^ 64 := by
  cases item with
  | limit val => exact ⟨rfl, rfl, rfl, rfl, rfl, hconf⟩
  | nicklen_min val => exact ⟨rfl, rfl, rfl, rfl, rfl, hconf⟩
  | bloom_size val => exact ⟨rfl, rfl, rfl, rfl, rfl, int_to_size_t_small val h.1 h.2⟩
  | bloom_bits val => exact absurd h (by simp [Setting.tame])
  | bloom_refresh val => exact ⟨rfl, rfl, rfl, rfl, rfl, hconf⟩

theorem settings_tame (items : List Setting) (s : State) (h : ∀ item ∈ items, item.tame)
    (hconf : s.conf_bloom_size * 8 < 2 ^ 64) :
    (items.foldl apply_setting s).bloom = s.bloom ∧
    (items.foldl apply_setting s).bloom_salt = s.bloom_salt ∧
    (items.foldl apply_setting s).bloom_size = s.bloom_size ∧
    (items.foldl apply_setting s).conf_bloom_bits = s.conf_bloom_bits ∧
    (items.foldl apply_setting s).chans = s.chans ∧
    (items.foldl apply_setting s).conf_bloom_size * 8 < 2 ^ 64 := by
  induction items generalizing s with
  | nil => exact ⟨rfl, rfl, rfl, rfl, rfl, hconf⟩
  | cons item rest ih =>
    obtain ⟨a1, a2, a3, a4, a5, a6⟩ :=
      apply_setting_tame s item (h item (List.mem_cons_self _ _)) hconf
    obtain ⟨b1, b2, b3, b4, b5, b6⟩ :=
      ih (apply_setting s item) (fun it hit => h it (List.mem_cons_of_mem _ hit)) a6
    rw [List.foldl_cons]
    exact ⟨b1.trans a1, b2.trans a2, b3.trans a3, b4.trans a4, b5.trans a5, b6⟩

theorem bloom_test_str_same_store (env : Env) (s t : State) (str : Str)
    (h1 : t.bloom = s.bloom) (h2 : t.bloom_salt = s.bloom_salt) (h3 : t.bloom_size = s.bloom_size)
    (h4 : t.conf_bloom_bits = s.conf_bloom_bits) :
    bloom_test_str env t str = bloom_test_str env s str := by
  rw [bloom_test_str_eq, bloom_test_str_eq, bloom_hashes_congr env t s 0 str h4,
    bloom_hashes_congr env t s 1 str h4, bloom_index_congr t s _ h2 h3,
    bloom_index_congr t s _ h2 h3, filter_bit_congr t s _ _ h1, filter_bit_congr t s _ _ h1]

theorem reginv_same_store (env : Env) (sys : Sys) (t : State) (hinv : RegInv env sys)
    (h1 : t.bloom = sys.st.bloom) (h2 : t.bloom_salt = sys.st.bloom_salt)
    (h3 : t.bloom_size = sys.st.bloom_size) (h4 : t.conf_bloom_bits = sys.st.conf_bloom_bits)
    (h5 : t.chans = sys.st.chans) (hconf : t.conf_bloom_size * 8 < 2 ^ 64) :
    RegInv env { sys with st := t } := by
  unfold RegInv at hinv ⊢
  obtain ⟨hlen, _, hwf, hnd, hsub, hmem⟩ := hinv
  refine ⟨by show t.bloom.length = _; rw [h1]; exact hlen, hconf, ?_, hnd,
    fun keys hreg => hsub keys (h5 ▸ hreg), fun keys hreg g hg hgk => ?_⟩
  · show (Active t ∧ ∃ keys, t.chans = some keys) ∨
      (t.bloom.getD 0 none = none ∧ irc_radixtree_size t.chans = 0)
    rw [h5, h1]
    rcases hwf with ⟨hA, hk⟩ | hin
    · refine Or.inl ⟨⟨by rw [h3]; exact hA.1, by rw [h3]; exact hA.2.1, fun i hi => ?_⟩, hk⟩
      rw [h1, h3]; exact hA.2.2 i hi
    · exact Or.inr hin
  · obtain ⟨e1, e2⟩ := hmem keys (h5 ▸ hreg) g hg hgk
    refine ⟨e1, fun m hm => ?_⟩
    show bloom_test_str env t m.client_p.name = 1
    rw [bloom_test_str_same_store env sys.st t _ h1 h2 h3 h4]
    exact e2 m hm

theorem resize_length (w : World) (s : State) (size : Nat) :
    (resize w s size).bloom.length = s.bloom.length ∧
    (resize w s size).conf_bloom_size = s.conf_bloom_size ∧
    (resize w s size).chans = some [] := by
  by_cases h : size = 0
  · rw [h, resize_zero, bloom_destroy_eq]
    simp [irc_radixtree_create]
  · obtain ⟨_, _, _, a4, _, a6, _, _, a9, _⟩ := resize_frame w s size h
    exact ⟨a6, a9, a4⟩

theorem reginv_resize (env : Env) (w : World) (s : State) (groups : List Channel) (size : Nat)
    (hlen : s.bloom.length = NUM_HASHES) (hsize : size * 8 < 2 ^ 64)
    (hconf : s.conf_bloom_size * 8 < 2 ^ 64) (hnd : (groups.map (chan_key env)).Nodup) :
    RegInv env { st := resize w s size, groups := groups } := by
  obtain ⟨r1, r2, r3⟩ := resize_length w s size
  unfold RegInv
  refine ⟨r1.trans hlen, by show (resize w s size).conf_bloom_size * 8 < _; rw [r2]; exact hconf,
    ?_, hnd, fun keys hreg k hk => ?_, fun keys hreg g hg hgk => ?_⟩
  · show (Active (resize w s size) ∧ ∃ keys, (resize w s size).chans = some keys) ∨
      ((resize w s size).bloom.getD 0 none = none ∧
        irc_radixtree_size (resize w s size).chans = 0)
    by_cases h : size = 0
    · right
      refine ⟨?_, by rw [r3]; rfl⟩
      rw [h, resize_zero]
      have := bloom_destroy_getD s 0
      rw [if_pos (by decide)] at this
      exact this
    · left
      obtain ⟨a1, _⟩ := resize_frame w s size h
      refine ⟨⟨by rw [a1]; omega, by rw [a1]; exact hsize, fun i hi => ?_⟩, [], r3⟩
      rw [resize_getD w s size h, if_pos hi, if_pos (by rw [hlen]; exact hi), a1]
      simp
  · have hreg' : (resize w s size).chans = some keys := hreg
    rw [r3] at hreg'
    rw [← Option.some.inj hreg'] at hk
    cases hk
  · have hreg' : (resize w s size).chans = some keys := hreg
    rw [r3] at hreg'
    rw [← Option.some.inj hreg'] at hgk
    cases hgk

theorem reginv_init (env : Env) : RegInv env Sys.init := by
  unfold RegInv
  refine ⟨rfl, by decide, Or.inr ⟨rfl, rfl⟩, List.nodup_nil, fun keys hreg => ?_,
    fun keys hreg => ?_⟩
  · cases hreg
  · cases hreg

theorem reginv_step (env : Env) (sys : Sys) (ev : Event) (htame : ev.tame)
    (hinv : RegInv env sys) : RegInv env (step env sys ev) := by
  cases ev with
  | modinit w salt =>
    have h := hinv
    unfold RegInv at h
    obtain ⟨hlen, hconf, _, hnd, _, _⟩ := h
    exact reginv_resize env w { sys.st with bloom_salt := salt % 2 ^ 64 } sys.groups
      sys.st.conf_bloom_size hlen hconf hconf hnd
  | configure w items =>
    have h := hinv
    unfold RegInv at h
    obtain ⟨hlen, hconf, _, hnd, _, _⟩ := h
    obtain ⟨a1, a2, a3, a4, a5, a6⟩ := settings_tame items sys.st htame hconf
    show RegInv env { sys with st := configure w sys.st items }
    unfold configure conf_spamfilter_nicks_end
    by_cases hne : (items.foldl apply_setting sys.st).conf_bloom_size ≠
        (items.foldl apply_setting sys.st).bloom_size
    · rw [if_pos hne]
      exact reginv_resize env w _ sys.groups _ (by rw [a1]; exact hlen) a6 a6 hnd
    · rw [if_neg hne]
      exact reginv_same_store env sys _ hinv a1 a2 a3 a4 a5 a6
  | join w chname mode client => exact reginv_join env sys w chname mode client hinv
  | message w hook => exact hinv

/-- The registry invariant holds in every state reached from the initial
one through `modinit`, joins, messages and reconfigurations that leave
`bloom_bits` alone: every current member of every registered group tests
positive. -/
theorem registry_invariant (env : Env) (evs : List Event) (htame : ∀ ev ∈ evs, ev.tame) :
    RegInv env (evs.foldl (step env) Sys.init) ∧
    ∀ ch ∈ (evs.foldl (step env) Sys.init).groups,
      chans_has env (evs.foldl (step env) Sys.init).st ch = 1 →
        ∀ m ∈ ch.members,
          bloom_test_str env (evs.foldl (step env) Sys.init).st m.client_p.name = 1 := by
  have hgen : ∀ (evs : List Event) (sys : Sys), (∀ ev ∈ evs, ev.tame) → RegInv env sys →
      RegInv env (evs.foldl (step env) sys) := by
    intro evs
    induction evs with
    | nil => intro sys _ h; exact h
    | cons ev rest ih =>
      intro sys ht h
      rw [List.foldl_cons]
      exact ih _ (fun e he => ht e (List.mem_cons_of_mem _ he))
        (reginv_step env sys ev (ht ev (List.mem_cons_self _ _)) h)
  have hinv := hgen evs Sys.init htame (reginv_init env)
  refine ⟨hinv, fun ch hch hhas m hm => ?_⟩
  unfold RegInv at hinv
  obtain ⟨_, _, _, _, _, hmem⟩ := hinv
  cases hreg : (evs.foldl (step env) Sys.init).st.chans with
  | none =>
    exfalso
    unfold chans_has irc_radixtree_retrieve at hhas
    rw [hreg] at hhas
    simp at hhas
  | some keys =>
    rw [chans_has_eq env _ ch keys hreg] at hhas
    have hk : chan_key env ch ∈ keys := by
      by_contra hn
      rw [if_neg hn] at hhas
      cases hhas
    exact (hmem keys hreg ch hch hk).2 m hm

/-! ## Delimiter classification, index bounds and the unscanned tail -/

/-- C21. ASCII delimiter classification: when the first byte is below 0x80,
`is_delim` returns 1 exactly when the byte lies in 0x20..0x2F, 0x3A..0x40,
0x5C..0x60 or 0x7B..0x7F and returns 0 otherwise, and it leaves the advance
counter unchanged; letters, digits, `[` and the control bytes 0x01..0x1F get
the answer 0. -/
theorem is_delim_ascii_ranges (ptr : Str) (adv : Nat) (h : ptr.getD 0 0 < 0x80) :
    ((is_delim ptr adv).1 = 1 ↔
      (0x20 ≤ ptr.getD 0 0 ∧ ptr.getD 0 0 ≤ 0x2F) ∨ (0x3A ≤ ptr.getD 0 0 ∧ ptr.getD 0 0 ≤ 0x40) ∨
      (0x5C ≤ ptr.getD 0 0 ∧ ptr.getD 0 0 ≤ 0x60) ∨ (0x7B ≤ ptr.getD 0 0 ∧ ptr.getD 0 0 ≤ 0x7F)) ∧
    ((is_delim ptr adv).1 ≠ 1 ↔ (is_delim ptr adv).1 = 0) ∧
    (is_delim ptr adv).2 = adv ∧
    (((0x41 ≤ ptr.getD 0 0 ∧ ptr.getD 0 0 ≤ 0x5A) ∨ (0x61 ≤ ptr.getD 0 0 ∧ ptr.getD 0 0 ≤ 0x7A) ∨
      (0x30 ≤ ptr.getD 0 0 ∧ ptr.getD 0 0 ≤ 0x39) ∨ ptr.getD 0 0 = 0x5B ∨
      (0x01 ≤ ptr.getD 0 0 ∧ ptr.getD 0 0 ≤ 0x1F)) → (is_delim ptr adv).1 = 0) := by
  rw [is_delim_ascii ptr adv h]
  generalize ptr.getD 0 0 = b at h ⊢
  have hr : ascii_delim b = true ↔
      (0x20 ≤ b ∧ b ≤ 0x2F) ∨ (0x3A ≤ b ∧ b ≤ 0x40) ∨ (0x5C ≤ b ∧ b ≤ 0x60) ∨
        (0x7B ≤ b ∧ b ≤ 0x7F) := by
    simp only [ascii_delim, Bool.or_eq_true, Bool.and_eq_true, decide_eq_true_eq, ge_iff_le]
    omega
  by_cases hd : ascii_delim b = true
  · rw [if_pos hd]
    refine ⟨⟨fun _ => hr.mp hd, fun _ => rfl⟩, by simp, rfl, fun hc => ?_⟩
    have := hr.mp hd
    omega
  · rw [if_neg hd]
    refine ⟨⟨fun h1 => by simp at h1, fun h1 => absurd (hr.mpr h1) hd⟩, by simp, rfl, fun _ => rfl⟩

theorem is_delim_ascii_ranges_witness :
    (is_delim (bytes "[x") 3).1 = 0 ∧ (is_delim (bytes ", x") 3) = (1, 3) :=
  ⟨(is_delim_ascii_ranges (bytes "[x") 3 (by decide)).2.2.2 (by decide),
    Prod.ext ((is_delim_ascii_ranges (bytes ", x") 3 (by decide)).1.mpr (by decide))
      (is_delim_ascii_ranges (bytes ", x") 3 (by decide)).2.2.1⟩

/-- C23. Index bounds: for `0 < bloom_size < 2^61` the bit index
`((hash + salt) mod 2^64) mod (bloom_size * 8)` is below `bloom_size * 8` and
its byte index is below `bloom_size`; `bloom_add` writes and `bloom_test`
reads at this one index; and `bloom_test` returns 0 or 1. -/
theorem bloom_index_bounds (s : State) (filter hash : Nat) (h0 : 0 < s.bloom_size)
    (h1 : s.bloom_size < 2 ^ 61) :
    bloom_index s hash = (hash + s.bloom_salt) % 2 ^ 64 % (s.bloom_size * 8) ∧
    bloom_index s hash < s.bloom_size * 8 ∧
    bloom_index s hash / 8 < s.bloom_size ∧
    bloom_add s filter hash =
      (match s.bloom.getD filter none with
      | none => s
      | some mem =>
        { s with bloom := s.bloom.set filter (some (mem.set (bloom_index s hash / 8)
            ((mem.getD (bloom_index s hash / 8) 0 ||| (1 <<< (bloom_index s hash % 8))) % 256))) }) ∧
    bloom_test s filter hash =
      (match s.bloom.getD filter none with
      | none => 0
      | some mem =>
        (mem.getD (bloom_index s hash / 8) 0 &&& (1 <<< (bloom_index s hash % 8))) >>>
          (bloom_index s hash % 8)) ∧
    (bloom_test s filter hash = 0 ∨ bloom_test s filter hash = 1) := by
  have h8 : s.bloom_size * 8 < 2 ^ 64 := by omega
  have hidx : bloom_index s hash = (hash + s.bloom_salt) % 2 ^ 64 % (s.bloom_size * 8) := by
    unfold bloom_index
    rw [Nat.mod_eq_of_lt h8]
  have hlt : bloom_index s hash < s.bloom_size * 8 := by
    rw [hidx]; exact Nat.mod_lt _ (by omega)
  refine ⟨hidx, hlt, by omega, rfl, rfl, ?_⟩
  rw [bloom_test_eq]
  cases filter_bit s filter (bloom_index s hash) <;> simp

theorem bloom_index_bounds_witness :
    bloom_index sample_seeded 1000 < 64 ∧
    (bloom_test sample_seeded 0 1000 = 0 ∨ bloom_test sample_seeded 0 1000 = 1) :=
  ⟨(bloom_index_bounds sample_seeded 0 1000 (by decide) (by decide)).2.1,
    (bloom_index_bounds sample_seeded 0 1000 (by decide) (by decide)).2.2.2.2.2⟩

theorem tested_nil_of_visits (env : Env) (w : World) (s : State) (text : Str) (chptr : Channel)
    (h : ∀ v ∈ (count_nicks_scan env w s text chptr).visits, in_window env s v.2 = false) :
    (count_nicks_scan env w s text chptr).tested = [] ∧ count_nicks env w s text chptr = 0 := by
  obtain ⟨a1, a2, a3, _⟩ := count_nicks_scan_spec env w s text chptr
  have ht : (count_nicks_scan env w s text chptr).tested = [] := by
    rw [a2, ← a1, List.map_eq_nil_iff, List.filter_eq_nil_iff]
    intro v hv
    rw [h v hv]
    simp
  refine ⟨ht, ?_⟩
  unfold count_nicks
  rw [a3, ht]
  rfl

theorem visits_scanned (env : Env) (w : World) (s : State) (text : Str) (chptr : Channel) :
    ∀ v ∈ (count_nicks_scan env w s text chptr).visits,
      v.2 ≤ v.1 ∧ v.1 + 6 < strlen text ∧ delim_at text v.1 = true := by
  intro v hv
  rw [(count_nicks_scan_spec env w s text chptr).1] at hv
  obtain ⟨b1, b2, b3, _⟩ := scan_visits_spec text (strlen text) (strlen text) 0 0 0
    (le_refl _) (fun p _ hp => by omega) v hv
  exact ⟨b1, b2, b3⟩

/-- C25. Unscanned tail: every delimiter `count_nicks` meets lies at an index
`i` with `i + 6 < len`, and every token it tests ends just before such a
delimiter; so `count_nicks` returns 0, testing nothing, for every text with
`len <= conf_nicklen_min + 6` and for every text in which no index `i` with
`i + 6 < len` holds a delimiter, whatever the store and the membership. -/
theorem count_nicks_unscanned_tail (env : Env) (w : World) (s : State) (text : Str)
    (chptr : Channel) :
    (∀ v ∈ (count_nicks_scan env w s text chptr).visits,
      v.1 + 6 < strlen text ∧ delim_at text v.1 = true) ∧
    (∀ t ∈ (count_nicks_scan env w s text chptr).tested,
      ∃ i, t.length ≤ i ∧ i + 6 < strlen text ∧ delim_at text i = true ∧
        t = (text.drop (i - t.length)).take t.length) ∧
    (strlen text ≤ s.conf_nicklen_min + 6 →
      (count_nicks_scan env w s text chptr).tested = [] ∧ count_nicks env w s text chptr = 0) ∧
    ((∀ i, i + 6 < strlen text → delim_at text i = false) →
      (count_nicks_scan env w s text chptr).tested = [] ∧ count_nicks env w s text chptr = 0) := by
  have hv := visits_scanned env w s text chptr
  refine ⟨fun v h => (hv v h).2, fun t ht => ?_, fun hlen => ?_, fun hno => ?_⟩
  · rw [tested_eq_slices] at ht
    obtain ⟨v, hvm, rfl⟩ := List.mem_map.mp ht
    obtain ⟨b1, b2, b3⟩ := hv v (List.mem_filter.mp hvm).1
    have hl : (slice_before text v.1 v.2).length = v.2 :=
      (token_at_eq text v.1 v.2 b1 (by omega)).2
    rw [hl]
    exact ⟨v.1, b1, b2, b3, rfl⟩
  · apply tested_nil_of_visits
    intro v h
    obtain ⟨b1, b2, _⟩ := hv v h
    have : ¬ s.conf_nicklen_min ≤ v.2 := by omega
    simp [in_window, this]
  · apply tested_nil_of_visits
    intro v h
    obtain ⟨_, b2, b3⟩ := hv v h
    rw [hno v.1 b2] at b3
    cases b3

theorem count_nicks_unscanned_tail_witness :
    strlen (bytes "anna bert") ≤ sample_seeded.conf_nicklen_min + 6 ∧
    count_nicks sample_env (sample_world sample_names) sample_seeded (bytes "anna bert")
      (sample_channel sample_names) = 0 ∧
    count_nicks sample_env (sample_world sample_names) sample_seeded (bytes "annabertcarl, dora")
      (sample_channel sample_names) = 0 :=
  ⟨by decide,
    ((count_nicks_unscanned_tail sample_env (sample_world sample_names) sample_seeded
      (bytes "anna bert") (sample_channel sample_names)).2.2.1 (by decide)).2,
    ((count_nicks_unscanned_tail sample_env (sample_world sample_names) sample_seeded
      (bytes "annabertcarl, dora") (sample_channel sample_names)).2.2.2
        (fun i hi => by
          have h18 : strlen (bytes "annabertcarl, dora") = 18 := by decide
          rw [h18] at hi
          have hi12 : i < 12 := by omega
          interval_cases i <;> decide)).2⟩

/-! ## Case sensitivity of the probabilistic test -/

theorem bloom_add_getD_other (s : State) (filter hash i : Nat) (h : filter ≠ i) :
    (bloom_add s filter hash).bloom.getD i none = s.bloom.getD i none := by
  rw [bloom_add_eq]
  cases hm : s.bloom.getD filter none with
  | none => rfl
  | some mem =>
    show (s.bloom.set filter _).getD i none = _
    rw [getD_set_eq, if_neg (fun hc => h hc.1)]

theorem filter_bit_add_zero (s : State) (filter hash idx n : Nat)
    (hz : s.bloom.getD filter none = some (List.replicate n 0))
    (hb : filter_bit (bloom_add s filter hash) filter idx = true) :
    idx = bloom_index s hash := by
  unfold filter_bit at hb
  rw [bloom_add_eq, hz] at hb
  generalize bloom_index s hash = b at hb ⊢
  simp only [getD_set_eq, getD_lt_of_some _ _ _ hz, and_self, if_true] at hb
  have hzero : ∀ k, (List.replicate n 0).getD k 0 = 0 := by
    intro k
    rw [List.getD_eq_getElem?_getD]
    by_cases hl : k < n
    · simp [List.getElem?_replicate, hl]
    · simp [List.getElem?_replicate, hl]
  by_cases hc : b / 8 = idx / 8 ∧ b / 8 < (List.replicate n 0).length
  · rw [if_pos hc, hzero, Nat.zero_or, show (256 : Nat) = 2 ^ 8 from rfl,
      Nat.testBit_mod_two_pow, Nat.one_shiftLeft, Nat.testBit_two_pow] at hb
    simp only [Bool.and_eq_true, decide_eq_true_eq] at hb
    have := hc.1
    omega
  · rw [if_neg hc, hzero] at hb
    simp at hb

theorem bernstein_ascii (env : Env) (str : Str) (h : ∀ b ∈ str, 1 ≤ b ∧ b ≤ 127) :
    bloom_hash_bernstein env str = str.foldl (fun h b => (h * 33 + b) % 2 ^ 64) 7681 := by
  unfold bloom_hash_bernstein
  rw [cstr_of_nonzero str (fun b hb => by have := (h b hb).1; omega)]
  apply foldl_congr_mem
  intro x a ha
  rw [char_to_u64_ascii env a (h a ha).2]

/-- C26. Case sensitivity of the probabilistic test: for every build, that
is whatever the first hash returns, and every salt, in a store of 65536 bytes
whose filters are all zero, the Bernstein hashes of "a" and "A" differ by 32
and select different bits; after `bloom_add_str("a")` alone the name "a" tests
positive and the name "A" tests negative. -/
theorem bloom_test_case_sensitive (env : Env) (s : State) (hsize : s.bloom_size = 65536)
    (hfresh : ∀ i, i < NUM_HASHES → s.bloom.getD i none = some (List.replicate 65536 0)) :
    bloom_hash_bernstein env (bytes "a") = bloom_hash_bernstein env (bytes "A") + 32 ∧
    bloom_index s (bloom_hash_bernstein env (bytes "a")) ≠
      bloom_index s (bloom_hash_bernstein env (bytes "A")) ∧
    bloom_test_str env (bloom_add_str env s (bytes "a")) (bytes "a") = 1 ∧
    bloom_test_str env (bloom_add_str env s (bytes "a")) (bytes "A") = 0 := by
  have ha : bloom_hash_bernstein env (bytes "a") = 253570 := by
    rw [bernstein_ascii env (bytes "a") (by decide)]; decide
  have hA : bloom_hash_bernstein env (bytes "A") = 253538 := by
    rw [bernstein_ascii env (bytes "A") (by decide)]; decide
  have hne : bloom_index s (bloom_hash_bernstein env (bytes "a")) ≠
      bloom_index s (bloom_hash_bernstein env (bytes "A")) := by
    rw [ha, hA]
    unfold bloom_index
    rw [hsize, show (65536 * 8 % 2 ^ 64 : Nat) = 524288 by norm_num,
      show (2 : Nat) ^ 64 = 18446744073709551616 by norm_num]
    omega
  have hact : Active s := by
    refine ⟨by rw [hsize]; decide, by rw [hsize]; decide, fun i hi => ?_⟩
    rw [hfresh i hi, hsize, Option.map_some', List.length_replicate]
  refine ⟨by rw [ha, hA], hne, bloom_test_str_add_self env s _ hact, ?_⟩
  obtain ⟨f1, f2, _, _, _, _, _, _, f9, _⟩ := bloom_add_str_frame env s (bytes "a")
  have hidx : bloom_index (bloom_add_str env s (bytes "a"))
      (bloom_hashes env (bloom_add_str env s (bytes "a")) 1 (bytes "A")) =
      bloom_index s (bloom_hashes env s 1 (bytes "A")) := by
    rw [bloom_hashes_congr env _ s 1 (bytes "A") f9, bloom_index_congr _ s _ f1 f2]
  rw [bloom_test_str_eq, hidx]
  have h1 : filter_bit (bloom_add_str env s (bytes "a")) 1
      (bloom_index s (bloom_hashes env s 1 (bytes "A"))) = false := by
    by_contra hb
    rw [Bool.not_eq_false] at hb
    rw [bloom_add_str_eq] at hb
    have hb' : filter_bit (bloom_add (bloom_add s 0 (bloom_hashes env s 0 (bytes "a"))) 1
        (bloom_hashes env (bloom_add s 0 (bloom_hashes env s 0 (bytes "a"))) 1 (bytes "a"))) 1
        (bloom_index s (bloom_hashes env s 1 (bytes "A"))) = true := by
      rw [← hb]; exact filter_bit_congr _ _ _ _ rfl
    have hz : (bloom_add s 0 (bloom_hashes env s 0 (bytes "a"))).bloom.getD 1 none =
        some (List.replicate 65536 0) := by
      rw [bloom_add_getD_other s 0 _ 1 (by decide)]
      exact hfresh 1 (by decide)
    have a1 := bloom_add_frame s 0 (bloom_hashes env s 0 (bytes "a"))
    have := filter_bit_add_zero _ 1 _ _ 65536 hz hb'
    rw [bloom_index_congr _ s _ a1.1 a1.2.1] at this
    exact hne this.symm
  rw [h1]
  simp

theorem default_store_fresh (w : World) (salt : Nat) :
    (modinit w State.init salt).bloom_size = 65536 ∧
    ∀ i, i < NUM_HASHES →
      (modinit w State.init salt).bloom.getD i none = some (List.replicate 65536 0) := by
  unfold modinit
  have hne : State.init.conf_bloom_size ≠ 0 := by decide
  obtain ⟨a1, _⟩ := resize_frame w { State.init with bloom_salt := salt % 2 ^ 64 }
    State.init.conf_bloom_size hne
  refine ⟨a1, fun i hi => ?_⟩
  rw [resize_getD w _ _ hne, if_pos hi,
    if_pos (show i < ({ State.init with bloom_salt := salt % 2 ^ 64 } : State).bloom.length
      from hi)]
  rfl

theorem bloom_test_case_sensitive_witness :
    sample_env.irccasecanon (bytes "a") = sample_env.irccasecanon (bytes "A") ∧
    bloom_test_str sample_env
      (bloom_add_str sample_env (modinit (sample_world []) State.init 12345) (bytes "a"))
      (bytes "A") = 0 :=
  ⟨by decide,
    (bloom_test_case_sensitive sample_env (modinit (sample_world []) State.init 12345)
      (default_store_fresh _ _).1 (default_store_fresh _ _).2).2.2.2⟩

/-! ## Multi-byte delimiters -/

theorem actinv_same_store (s t : State) (h : ActInv s) (h1 : t.bloom = s.bloom)
    (h3 : t.bloom_size = s.bloom_size) (hconf : t.conf_bloom_size * 8 < 2 ^ 64) : ActInv t := by
  unfold ActInv at h ⊢
  obtain ⟨hlen, _, hwf⟩ := h
  refine ⟨by rw [h1]; exact hlen, hconf, ?_⟩
  rw [h1, h3]
  rcases hwf with hA | hin
  · refine Or.inl ⟨by rw [h3]; exact hA.1, by rw [h3]; exact hA.2.1, fun i hi => ?_⟩
    rw [h1, h3]; exact hA.2.2 i hi
  · exact Or.inr hin

theorem actinv_of_active (s t : State) (h : ActInv s) (hA : Active t)
    (hlen : t.bloom.length = s.bloom.length) (hconf : t.conf_bloom_size = s.conf_bloom_size) :
    ActInv t := by
  unfold ActInv at h ⊢
  exact ⟨hlen.trans h.1, by rw [hconf]; exact h.2.1, Or.inl hA⟩

theorem actinv_resize (w : World) (s : State) (size : Nat)
    (hlen : s.bloom.length = NUM_HASHES) (hsize : size * 8 < 2 ^ 64)
    (hconf : s.conf_bloom_size * 8 < 2 ^ 64) : ActInv (resize w s size) := by
  obtain ⟨r1, r2, _⟩ := resize_length w s size
  unfold ActInv
  refine ⟨r1.trans hlen, by rw [r2]; exact hconf, ?_⟩
  by_cases h : size = 0
  · right
    rw [h, resize_zero]
    refine ⟨fun i hi => ?_, ?_⟩
    · have := bloom_destroy_getD s i
      rw [if_pos hi] at this
      exact this
    · rw [bloom_destroy_eq]
  · left
    obtain ⟨a1, _⟩ := resize_frame w s size h
    refine ⟨by rw [a1]; omega, by rw [a1]; exact hsize, fun i hi => ?_⟩
    rw [resize_getD w s size h, if_pos hi, if_pos (by rw [hlen]; exact hi), a1,
      Option.map_some', List.length_replicate]

theorem actinv_flush (w : World) (s : State) (h : ActInv s) : ActInv (bloom_flush w s) := by
  obtain ⟨a1, _, a3, _, _, _, _, _, a9, _⟩ := bloom_flush_frame w s
  have h' := h
  unfold ActInv at h'
  obtain ⟨hlen, hconf, hwf⟩ := h'
  rcases hwf with hA | ⟨hnull, hz⟩
  · exact actinv_of_active s _ h (bloom_flush_active w s hA).1 a1 a9
  · unfold ActInv
    refine ⟨a1.trans hlen, by rw [a9]; exact hconf, Or.inr ⟨fun i hi => ?_, by rw [a3]; exact hz⟩⟩
    rw [bloom_flush_getD, if_pos hi, hnull i hi]
    rfl

theorem actinv_reset (w : World) (s : State) (h : ActInv s) : ActInv (reset w s) := by
  have hf := actinv_flush w s h
  unfold reset
  by_cases hs : (s.bloom.getD 0 none).isSome = true
  · rw [if_pos hs]
    exact actinv_same_store (bloom_flush w s) _ hf rfl rfl hf.2.1
  · rw [if_neg hs]
    exact actinv_same_store s _ h rfl rfl h.2.1

theorem active_chans_add (env : Env) (s : State) (chptr : Channel) (hA : Active s) :
    Active (chans_add env s chptr).1 ∧
    (chans_add env s chptr).1.bloom.length = s.bloom.length ∧
    (chans_add env s chptr).1.conf_bloom_size = s.conf_bloom_size := by
  cases hreg : s.chans with
  | none =>
    have : chans_add env s chptr = (s, 0) := by
      unfold chans_add irc_radixtree_add
      rw [hreg]
    rw [this]
    exact ⟨hA, rfl, rfl⟩
  | some keys =>
    by_cases hk : chan_key env chptr ∈ keys
    · rw [chans_add_known env s chptr keys hreg hk]
      exact ⟨hA, rfl, rfl⟩
    · rw [chans_add_new env s chptr keys hreg hk]
      have hA2 : Active { s with chans := some (chan_key env chptr :: keys) } := hA
      obtain ⟨_, _, _, _, _, _, _, f8, _⟩ := foldl_add_str_frame env (member_names chptr)
        { s with chans := some (chan_key env chptr :: keys) }
      exact ⟨foldl_add_str_active env _ _ hA2, foldl_add_str_length env _ _, f8⟩

theorem actinv_join (env : Env) (w : World) (s : State) (data : hook_data_channel_approval)
    (h : ActInv s) : ActInv (hook_channel_join env w s data) := by
  by_cases hskip : spamfilter_enabled env data.chptr = false ∨ s.bloom.getD 0 none = none
  · rw [hook_channel_join_skip env w s data hskip]
    exact h
  · have hen : spamfilter_enabled env data.chptr = true := by
      cases he : spamfilter_enabled env data.chptr
      · exact absurd (Or.inl he) hskip
      · rfl
    have hnn : s.bloom.getD 0 none ≠ none := fun hc => hskip (Or.inr hc)
    have hsome : (s.bloom.getD 0 none).isSome = true := by
      cases hc : s.bloom.getD 0 none with
      | none => exact absurd hc hnn
      | some m => rfl
    rw [hook_channel_join_eq env w s data hen hsome]
    have h1 : ActInv (if expired w s = true then reset w s else s) := by
      by_cases hexp : expired w s = true
      · rw [if_pos hexp]; exact actinv_reset w s h
      · rw [if_neg hexp]; exact h
    have hsome1 : (if expired w s = true then reset w s else s).bloom.getD 0 none ≠ none := by
      by_cases hexp : expired w s = true
      · rw [if_pos hexp, reset_of_alloc w s hsome]
        show (bloom_flush w s).bloom.getD 0 none ≠ none
        rw [bloom_flush_getD, if_pos (by decide)]
        cases hc : s.bloom.getD 0 none with
        | none => exact absurd hc hnn
        | some m => simp [memset]
      · rw [if_neg hexp]; exact hnn
    generalize (if expired w s = true then reset w s else s) = s1 at h1 hsome1 ⊢
    have hA1 : Active s1 := by
      have h1' := h1
      unfold ActInv at h1'
      rcases h1'.2.2 with hA | ⟨hnull, _⟩
      · exact hA
      · exact absurd (hnull 0 (by decide)) hsome1
    by_cases hc : chans_has env s1 data.chptr ≠ 0
    · rw [if_pos hc]
      obtain ⟨_, _, _, _, _, _, _, f8, _⟩ := bloom_add_str_frame env s1 data.client.name
      exact actinv_of_active s1 _ h1 (bloom_add_str_active env s1 _ hA1)
        (bloom_add_str_length env s1 _) f8
    · rw [if_neg hc]
      obtain ⟨c1, c2, c3⟩ := active_chans_add env s1 data.chptr hA1
      exact actinv_of_active s1 _ h1 c1 c2 c3

theorem actinv_setting (s : State) (item : Setting)
    (halloc : (Op.setting item).allocatable) (h : ActInv s) : ActInv (apply_setting s item) := by
  cases item with
  | limit val => exact actinv_same_store s _ h rfl rfl h.2.1
  | nicklen_min val => exact actinv_same_store s _ h rfl rfl h.2.1
  | bloom_size val =>
    exact actinv_same_store s _ h rfl rfl (int_to_size_t_small val halloc.1 halloc.2)
  | bloom_bits val => exact actinv_same_store s _ h rfl rfl h.2.1
  | bloom_refresh val => exact actinv_same_store s _ h rfl rfl h.2.1

theorem actinv_step (env : Env) (s : State) (op : Op) (halloc : op.allocatable)
    (h : ActInv s) : ActInv (run_op env s op) := by
  cases op with
  | modinit w salt =>
    exact actinv_resize w { s with bloom_salt := salt % 2 ^ 64 } s.conf_bloom_size h.1 h.2.1 h.2.1
  | resize w size => exact actinv_resize w s size h.1 halloc h.2.1
  | reset w => exact actinv_reset w s h
  | bloom_flush w => exact actinv_flush w s h
  | setting item => exact actinv_setting s item halloc h
  | conf_end w =>
    show ActInv (conf_spamfilter_nicks_end w s)
    unfold conf_spamfilter_nicks_end
    by_cases hne : s.conf_bloom_size ≠ s.bloom_size
    · rw [if_pos hne]; exact actinv_resize w s _ h.1 h.2.1 h.2.1
    · rw [if_neg hne]; exact h
  | on_join w data => exact actinv_join env w s data h
  | on_message w hook => exact h

theorem actinv_init : ActInv State.init := by
  unfold ActInv
  refine ⟨rfl, by decide, Or.inr ⟨fun i hi => ?_, rfl⟩⟩
  have : i = 0 ∨ i = 1 := by unfold NUM_HASHES at hi; omega
  rcases this with rfl | rfl <;> rfl

theorem actinv_run (env : Env) (ops : List Op) (s : State) (halloc : ∀ op ∈ ops, op.allocatable)
    (h : ActInv s) : ActInv (ops.foldl (run_op env) s) := by
  induction ops generalizing s with
  | nil => exact h
  | cons op rest ih =>
    rw [List.foldl_cons]
    exact ih _ (fun o ho => halloc o (List.mem_cons_of_mem _ ho))
      (actinv_step env s op (halloc op (List.mem_cons_self _ _)) h)

/-- C24. Activity invariant: the initial state has no filter and size 0, and
after every sequence of `modinit`, `resize`, `reset`, `bloom_flush`,
configuration items and ends, joins and messages whose sizes can be
allocated, filter 0 is allocated exactly when `bloom_size > 0`, and then every
filter is allocated with `bloom_size` bytes; so whenever the hooks' `bloom[0]`
guard passes, the modulus `bloom_size * 8` of `bloom_add` and `bloom_test` is
not zero. -/
theorem activity_invariant (env : Env) (ops : List Op) (halloc : ∀ op ∈ ops, op.allocatable) :
    (State.init.bloom_size = 0 ∧ ∀ i, i < NUM_HASHES → State.init.bloom.getD i none = none) ∧
    (((ops.foldl (run_op env) State.init).bloom.getD 0 none).isSome = true ↔
      0 < (ops.foldl (run_op env) State.init).bloom_size) ∧
    (0 < (ops.foldl (run_op env) State.init).bloom_size →
      ∀ i, i < NUM_HASHES → ∃ mem,
        (ops.foldl (run_op env) State.init).bloom.getD i none = some mem ∧
          mem.length = (ops.foldl (run_op env) State.init).bloom_size) ∧
    (((ops.foldl (run_op env) State.init).bloom.getD 0 none).isSome = true →
      (ops.foldl (run_op env) State.init).bloom_size * 8 % 2 ^ 64 ≠ 0) := by
  have hinit := actinv_init
  have h := actinv_run env ops State.init halloc hinit
  unfold ActInv at h hinit
  generalize ops.foldl (run_op env) State.init = s at h ⊢
  obtain ⟨_, _, hwf⟩ := h
  have hi0 : ∀ i, i < NUM_HASHES → State.init.bloom.getD i none = none := by
    rcases hinit.2.2 with hA | ⟨hn, _⟩
    · exact absurd hA.1 (by decide)
    · exact hn
  refine ⟨⟨rfl, hi0⟩, ?_, ?_, ?_⟩
  · rcases hwf with hA | ⟨hnull, hz⟩
    · obtain ⟨m0, hm0, _⟩ := active_filter s hA 0 (by decide)
      rw [hm0]
      exact ⟨fun _ => hA.1, fun _ => rfl⟩
    · rw [hnull 0 (by decide), hz]
      exact ⟨fun hc => (by cases hc), fun hc => (by omega)⟩
  · intro hpos i hi
    rcases hwf with hA | ⟨_, hz⟩
    · exact active_filter s hA i hi
    · omega
  · intro hsome
    rcases hwf with hA | ⟨hnull, _⟩
    · rw [Nat.mod_eq_of_lt hA.2.1]
      have := hA.1
      omega
    · rw [hnull 0 (by decide)] at hsome
      cases hsome

theorem sample_ops_allocatable : ∀ op ∈ sample_ops, op.allocatable := by
  intro op hop
  simp only [sample_ops, List.mem_cons, List.mem_singleton, List.not_mem_nil, or_false] at hop
  rcases hop with rfl | rfl | rfl | rfl | rfl | rfl | rfl | rfl
  · trivial
  · exact ⟨by decide, by decide⟩
  · trivial
  · trivial
  · trivial
  · trivial
  · trivial
  · show 4 * 8 < 2 ^ 64
    decide

theorem activity_invariant_witness :
    (sample_ops.foldl (run_op sample_env) State.init).bloom_size = 4 ∧
    (((sample_ops.foldl (run_op sample_env) State.init).bloom.getD 0 none).isSome = true ↔
      0 < (sample_ops.foldl (run_op sample_env) State.init).bloom_size) :=
  ⟨by decide, (activity_invariant sample_env sample_ops sample_ops_allocatable).2.1⟩

end SpamfilterNicks
